import Mathlib

/-!
Verification of the marie-ssg static-site build pipeline.

This file gives a shallow embedding, in Lean 4, of the pure core of the
pipeline: path resolution (src/utils.rs), URL-pattern selection and the
build orchestration (src/build.rs), asset hashing and stale-artifact
cleanup (src/asset_hash.rs), static-file synchronization (src/output.rs),
RSS generation (src/rss.rs) and header-anchor insertion (src/utils.rs).
File-system state and the external collaborators (markdown conversion,
the BLAKE3 hash, the RFC 2822 formatter of the time crate) are modelled
as explicit parameters or oracles; machine strings are modelled as
`List Char` and file paths as lists of path components, matching the
component-wise semantics of Rust's `Path`.
-/

set_option maxHeartbeats 1000000

/-- Text is modelled as a list of characters; `chars` converts a literal. -/
def chars (s : String) : List Char := s.data

/-! ## PathResolver: content-type extraction (src/utils.rs, get_content_type) -/

/-- Component-wise stripping of a leading path, mirroring Rust's
`Path::strip_prefix` on paths already split into components: returns the
remaining components when `pre` is a leading run of `p`'s components. -/
def pathStrip (pre p : List String) : Option (List String) :=
  match pre, p with
  | [], rest => some rest
  | _ :: _, [] => none
  | a :: pre', b :: p' => if a = b then pathStrip pre' p' else none

/-- Embedding of `get_content_type` (src/utils.rs:247-254): strip the content
directory from the file path, take the first remaining component, and fall
back to "page" when stripping fails or nothing remains. -/
def get_content_type (file : List String) (content_dir : List String) : String :=
  match pathStrip content_dir file with
  | none => "page"
  | some rel =>
    match rel.head? with
    | none => "page"
    | some c => c

/-! ## PathResolver: URL-pattern precedence (src/build.rs:146-160) -/

/-- Per-content-type configuration (src/config.rs, `ContentTypeConfig`);
`url_pattern` is the optional explicit pattern read by src/build.rs:152. -/
structure ContentTypeConfig where
  index_template : String
  content_template : String
  output_naming : Option String
  rss_include : Option Bool
  url_pattern : Option String
deriving DecidableEq

/-- Embedding of the pattern-selection expression in `run_build`
(src/build.rs:148-160): explicit `url_pattern` first, else the legacy
`output_naming = "date"` flag maps to "{date}-{stem}", else "{stem}";
the content map is modelled as an association list keyed by type name. -/
def choose_url_pattern (content : List (String × ContentTypeConfig))
    (ctype : String) : String :=
  match content.lookup ctype with
  | none => "{stem}"
  | some ct =>
    match ct.url_pattern with
    | some p => p
    | none =>
      match ct.output_naming with
      | some s => if s = "date" then "{date}-{stem}" else "{stem}"
      | none => "{stem}"

/-- C4: the URL pattern used for a content item is chosen by precedence:
the content type's explicit `url_pattern` when present; otherwise the fixed
pattern "{date}-{stem}" when the legacy `output_naming` flag equals "date";
otherwise the default "{stem}", which is also used when the content type has
no configuration entry at all. -/
theorem choose_url_pattern_precedence
    (content : List (String × ContentTypeConfig)) (ctype : String) :
    (∀ ct p, content.lookup ctype = some ct → ct.url_pattern = some p →
      choose_url_pattern content ctype = p) ∧
    (∀ ct, content.lookup ctype = some ct → ct.url_pattern = none →
      ct.output_naming = some "date" →
      choose_url_pattern content ctype = "{date}-{stem}") ∧
    (∀ ct, content.lookup ctype = some ct → ct.url_pattern = none →
      (∀ s, ct.output_naming = some s → s ≠ "date") →
      choose_url_pattern content ctype = "{stem}") ∧
    (content.lookup ctype = none → choose_url_pattern content ctype = "{stem}") := by
  refine ⟨?_, ?_, ?_, ?_⟩
  · intro ct p hct hp
    simp [choose_url_pattern, hct, hp]
  · intro ct hct hp hd
    simp [choose_url_pattern, hct, hp, hd]
  · intro ct hct hp hd
    cases hnaming : ct.output_naming with
    | none => simp [choose_url_pattern, hct, hp, hnaming]
    | some s =>
      have hs : s ≠ "date" := hd s hnaming
      simp [choose_url_pattern, hct, hp, hnaming, hs]
  · intro hct
    simp [choose_url_pattern, hct]

/-- C4 witness: the three precedence branches evaluated on concrete
configurations. -/
theorem choose_url_pattern_precedence_witness :
    choose_url_pattern
      [("blog", ⟨"bi", "bc", some "date", none, some "{year}/{stem}"⟩)] "blog"
      = "{year}/{stem}" ∧
    choose_url_pattern
      [("posts", ⟨"pi", "pc", some "date", none, none⟩)] "posts"
      = "{date}-{stem}" ∧
    choose_url_pattern
      [("pages", ⟨"gi", "gc", some "default", none, none⟩)] "pages"
      = "{stem}" ∧
    choose_url_pattern [] "notes" = "{stem}" := by
  refine ⟨?_, ?_, ?_, ?_⟩
  · exact (choose_url_pattern_precedence _ "blog").1
      ⟨"bi", "bc", some "date", none, some "{year}/{stem}"⟩ "{year}/{stem}" rfl rfl
  · exact (choose_url_pattern_precedence _ "posts").2.1
      ⟨"pi", "pc", some "date", none, none⟩ rfl rfl rfl
  · exact (choose_url_pattern_precedence _ "pages").2.2.1
      ⟨"gi", "gc", some "default", none, none⟩ rfl rfl
      (fun s hs => by
        have : some s = some "default" := hs.symm
        cases this
        decide)
  · exact (choose_url_pattern_precedence _ "notes").2.2.2 rfl

/-- C3: evaluation of `get_content_type` at the inputs the claim fixes.
The first conjunct exhibits the divergence: for a file lying directly in the
content root the code returns the file's own name ("x.md"), not the default
"page" promised by the claim and by the function's own doc comment
(src/utils.rs:244: "If the file is directly in the content directory
(no subdirectory), returns page"). The remaining conjuncts show the two
behaviours the code does implement as documented. -/
theorem get_content_type_direct_file_divergence :
    get_content_type ["content", "x.md"] ["content"] = "x.md" ∧
    ("x.md" : String) ≠ "page" ∧
    get_content_type ["content", "projects", "x.md"] ["content"] = "projects" ∧
    get_content_type ["other", "x.md"] ["content"] = "page" := by
  refine ⟨rfl, by decide, rfl, rfl⟩

/-! ## PathResolver: filename stem extraction (src/utils.rs:90-116) -/

/-- Rust `str::strip_suffix` on character lists: the input without the given
suffix when it ends with it, none otherwise. -/
def stripSuffixL (l suf : List Char) : Option (List Char) :=
  if suf.isSuffixOf l then some (l.take (l.length - suf.length)) else none

/-- First half of `extract_slug_from_filename` (src/utils.rs:92-96): strip a
known extension, trying ".md", then ".markdown", then ".html". -/
def strip_extension (name : List Char) : List Char :=
  match stripSuffixL name (chars ".md") with
  | some n => n
  | none =>
    match stripSuffixL name (chars ".markdown") with
    | some n => n
    | none =>
      match stripSuffixL name (chars ".html") with
      | some n => n
      | none => name

/-- The date-prefix test of src/utils.rs:103-109 on the first eleven
characters: hyphens at offsets 4, 7 and 10, ASCII digits at offsets
0-3, 5-6 and 8-9. -/
def dateCheck (pd : List Char) : Bool :=
  pd.length == 11 &&
  pd[4]? == some '-' && pd[7]? == some '-' && pd[10]? == some '-' &&
  (pd.take 4).all Char.isDigit &&
  ((pd.drop 5).take 2).all Char.isDigit &&
  ((pd.drop 8).take 2).all Char.isDigit

/-- Embedding of `extract_slug_from_filename` (src/utils.rs:90-116): strip a
known extension, then drop a leading "YYYY-MM-DD-" prefix exactly when the
remaining name is longer than eleven characters and its first eleven
characters pass the date test. -/
def extract_slug_from_filename (filename : List Char) : List Char :=
  if 11 < (strip_extension filename).length &&
      dateCheck ((strip_extension filename).take 11)
  then (strip_extension filename).drop 11
  else strip_extension filename

theorem stripSuffixL_append (a s : List Char) : stripSuffixL (a ++ s) s = some a := by
  unfold stripSuffixL
  rw [if_pos (List.isSuffixOf_iff_suffix.mpr (List.suffix_append a s))]
  simp

/-- C5 helper: a valid date prefix in explicit form. -/
def datePrefixChars (y1 y2 y3 y4 m1 m2 d1 d2 : Char) : List Char :=
  [y1, y2, y3, y4, '-', m1, m2, '-', d1, d2, '-']

theorem dateCheck_datePrefixChars (y1 y2 y3 y4 m1 m2 d1 d2 : Char)
    (hy1 : y1.isDigit) (hy2 : y2.isDigit) (hy3 : y3.isDigit) (hy4 : y4.isDigit)
    (hm1 : m1.isDigit) (hm2 : m2.isDigit) (hd1 : d1.isDigit) (hd2 : d2.isDigit) :
    dateCheck (datePrefixChars y1 y2 y3 y4 m1 m2 d1 d2) = true := by
  simp [dateCheck, datePrefixChars, hy1, hy2, hy3, hy4, hm1, hm2, hd1, hd2]

/-- C5: stem extraction first strips a known extension, then strips a leading
date prefix exactly in the YYYY-MM-DD- shape. Part (a): a well-formed eleven
character date prefix followed by a nonempty remainder is stripped (shown for
the ".md" extension). Part (b): whenever any stripping beyond the extension
happens, the extension-stripped name is longer than eleven characters, carries
hyphens at offsets 4, 7 and 10 and ASCII digits at offsets 0-3, 5-6 and 8-9,
and the result is that name without its first eleven characters. Part (c):
the claim's malformed example "2025-1-29-" is left as part of the stem. -/
theorem extract_slug_spec :
    (∀ (y1 y2 y3 y4 m1 m2 d1 d2 : Char) (rest : List Char),
      y1.isDigit → y2.isDigit → y3.isDigit → y4.isDigit →
      m1.isDigit → m2.isDigit → d1.isDigit → d2.isDigit → rest ≠ [] →
      extract_slug_from_filename
        (datePrefixChars y1 y2 y3 y4 m1 m2 d1 d2 ++ (rest ++ chars ".md")) = rest) ∧
    (∀ fn : List Char, extract_slug_from_filename fn ≠ strip_extension fn →
      extract_slug_from_filename fn = (strip_extension fn).drop 11 ∧
      11 < (strip_extension fn).length ∧
      (strip_extension fn)[4]? = some '-' ∧
      (strip_extension fn)[7]? = some '-' ∧
      (strip_extension fn)[10]? = some '-' ∧
      (∀ i, i < 4 → ∃ c, (strip_extension fn)[i]? = some c ∧ c.isDigit) ∧
      (∀ i, 5 ≤ i → i < 7 → ∃ c, (strip_extension fn)[i]? = some c ∧ c.isDigit) ∧
      (∀ i, 8 ≤ i → i < 10 → ∃ c, (strip_extension fn)[i]? = some c ∧ c.isDigit)) ∧
    (extract_slug_from_filename (chars "2025-1-29-article.md")
      = chars "2025-1-29-article") := by
  refine ⟨?_, ?_, by decide⟩
  · intro y1 y2 y3 y4 m1 m2 d1 d2 rest hy1 hy2 hy3 hy4 hm1 hm2 hd1 hd2 hrest
    have hstrip : strip_extension
        (datePrefixChars y1 y2 y3 y4 m1 m2 d1 d2 ++ (rest ++ chars ".md"))
        = datePrefixChars y1 y2 y3 y4 m1 m2 d1 d2 ++ rest := by
      unfold strip_extension
      rw [← List.append_assoc, stripSuffixL_append]
    have hlen11 : (datePrefixChars y1 y2 y3 y4 m1 m2 d1 d2).length = 11 := by
      simp [datePrefixChars]
    have hlen : 11 < (datePrefixChars y1 y2 y3 y4 m1 m2 d1 d2 ++ rest).length := by
      have : 0 < rest.length := List.length_pos.mpr hrest
      simp only [List.length_append, hlen11]
      omega
    have htake : (datePrefixChars y1 y2 y3 y4 m1 m2 d1 d2 ++ rest).take 11
        = datePrefixChars y1 y2 y3 y4 m1 m2 d1 d2 :=
      List.take_left' hlen11
    have hdrop : (datePrefixChars y1 y2 y3 y4 m1 m2 d1 d2 ++ rest).drop 11 = rest :=
      List.drop_left' hlen11
    unfold extract_slug_from_filename
    rw [hstrip, htake,
      dateCheck_datePrefixChars y1 y2 y3 y4 m1 m2 d1 d2 hy1 hy2 hy3 hy4 hm1 hm2 hd1 hd2,
      Bool.and_true, if_pos (decide_eq_true hlen)]
    exact hdrop
  · intro fn hne
    by_cases hcond :
        (11 < (strip_extension fn).length &&
          dateCheck ((strip_extension fn).take 11)) = true
    · have hval : extract_slug_from_filename fn = (strip_extension fn).drop 11 := by
        unfold extract_slug_from_filename
        rw [hcond]
        simp
      have hcond' := hcond
      simp only [Bool.and_eq_true, decide_eq_true_eq] at hcond'
      obtain ⟨hlen, hdc⟩ := hcond'
      simp only [dateCheck, Bool.and_eq_true, beq_iff_eq, List.all_eq_true] at hdc
      obtain ⟨⟨⟨⟨⟨⟨hl11, h4⟩, h7⟩, h10⟩, hdig1⟩, hdig2⟩, hdig3⟩ := hdc
      refine ⟨hval, hlen, ?_, ?_, ?_, ?_, ?_, ?_⟩
      · rw [← List.getElem?_take_of_lt (l := strip_extension fn) (n := 11) (by omega)]
        exact h4
      · rw [← List.getElem?_take_of_lt (l := strip_extension fn) (n := 11) (by omega)]
        exact h7
      · rw [← List.getElem?_take_of_lt (l := strip_extension fn) (n := 11) (by omega)]
        exact h10
      · intro i hi
        have hilen : i < (strip_extension fn).length := by omega
        refine ⟨(strip_extension fn).get ⟨i, hilen⟩, List.getElem?_eq_getElem hilen, ?_⟩
        apply hdig1
        apply List.getElem?_mem (n := i)
        rw [List.getElem?_take_of_lt hi,
          List.getElem?_take_of_lt (show i < 11 by omega)]
        exact List.getElem?_eq_getElem hilen
      · intro i hi5 hi7
        have hilen : i < (strip_extension fn).length := by omega
        refine ⟨(strip_extension fn).get ⟨i, hilen⟩, List.getElem?_eq_getElem hilen, ?_⟩
        apply hdig2
        apply List.getElem?_mem (n := i - 5)
        rw [List.getElem?_take_of_lt (show i - 5 < 2 by omega), List.getElem?_drop]
        have h5 : 5 + (i - 5) = i := by omega
        rw [h5, List.getElem?_take_of_lt (show i < 11 by omega)]
        exact List.getElem?_eq_getElem hilen
      · intro i hi8 hi10
        have hilen : i < (strip_extension fn).length := by omega
        refine ⟨(strip_extension fn).get ⟨i, hilen⟩, List.getElem?_eq_getElem hilen, ?_⟩
        apply hdig3
        apply List.getElem?_mem (n := i - 8)
        rw [List.getElem?_take_of_lt (show i - 8 < 2 by omega), List.getElem?_drop]
        have h8 : 8 + (i - 8) = i := by omega
        rw [h8, List.getElem?_take_of_lt (show i < 11 by omega)]
        exact List.getElem?_eq_getElem hilen
    · exfalso
      apply hne
      unfold extract_slug_from_filename
      rw [Bool.not_eq_true] at hcond
      rw [hcond]
      simp

/-- C5 witness: the theorem applied at the concrete filename
"2024-01-15-old-article.md", whose stem is "old-article". -/
theorem extract_slug_spec_witness :
    extract_slug_from_filename (chars "2024-01-15-old-article.md")
      = chars "old-article" := by
  have h := extract_slug_spec.1 '2' '0' '2' '4' '0' '1' '1' '5' (chars "old-article")
    (by decide) (by decide) (by decide) (by decide)
    (by decide) (by decide) (by decide) (by decide) (by decide)
  simpa using h

/-! ## AssetHasher: hashed-filename detection and stale-artifact cleanup
(src/asset_hash.rs:20-41 and 67-97) -/

/-- Rust `char::is_ascii_hexdigit`: 0-9, a-f, A-F. -/
def isAsciiHexDigit (c : Char) : Bool :=
  c.isDigit || ('a' ≤ c && c ≤ 'f') || ('A' ≤ c && c ≤ 'F')

/-- Split a character list at the LAST occurrence of `c`, returning the parts
before and after it; none when `c` does not occur. This models Rust's
`rsplitn(2, c)` producing two pieces. -/
def splitLast (l : List Char) (c : Char) : Option (List Char × List Char) :=
  match l with
  | [] => none
  | x :: xs =>
    match splitLast xs c with
    | some (b, a) => some (x :: b, a)
    | none => if x = c then some ([], xs) else none

theorem splitLast_eq_none_iff (l : List Char) (c : Char) :
    splitLast l c = none ↔ c ∉ l := by
  induction l with
  | nil => simp [splitLast]
  | cons x xs ih =>
    simp only [splitLast]
    cases h : splitLast xs c with
    | some p =>
      simp only []
      constructor
      · intro hcontra
        exact absurd hcontra (by simp)
      · intro hmem
        exfalso
        have : c ∈ xs := by
          by_contra hc
          rw [← ih] at hc
          rw [hc] at h
          exact Option.noConfusion h
        exact hmem (List.mem_cons_of_mem x this)
    | none =>
      have hnotmem : c ∉ xs := (ih).mp h
      by_cases hx : x = c
      · simp [hx]
      · rw [if_neg hx]
        constructor
        · intro _
          simp only [List.mem_cons, not_or]
          exact ⟨fun hc => hx hc.symm, hnotmem⟩
        · intro _
          rfl

theorem splitLast_eq_some (l : List Char) (c : Char) (b a : List Char)
    (h : splitLast l c = some (b, a)) : l = b ++ c :: a ∧ c ∉ a := by
  induction l generalizing b a with
  | nil => exact absurd h (by simp [splitLast])
  | cons x xs ih =>
    simp only [splitLast] at h
    cases hx : splitLast xs c with
    | some p =>
      obtain ⟨b', a'⟩ := p
      rw [hx] at h
      simp only [Option.some.injEq, Prod.mk.injEq] at h
      obtain ⟨hb, ha⟩ := h
      obtain ⟨heq, hnot⟩ := ih b' a' hx
      subst hb ha
      exact ⟨by rw [heq]; simp, hnot⟩
    | none =>
      rw [hx] at h
      by_cases hxc : x = c
      · rw [if_pos hxc] at h
        simp only [Option.some.injEq, Prod.mk.injEq] at h
        obtain ⟨hb, ha⟩ := h
        subst hb ha hxc
        exact ⟨rfl, (splitLast_eq_none_iff xs x).mp hx⟩
      · rw [if_neg hxc] at h
        exact Option.noConfusion h

theorem splitLast_append (b a : List Char) (c : Char) (hnot : c ∉ a) :
    splitLast (b ++ c :: a) c = some (b, a) := by
  induction b with
  | nil =>
    simp only [List.nil_append, splitLast]
    rw [(splitLast_eq_none_iff a c).mpr hnot]
    simp
  | cons x xs ih =>
    simp only [List.cons_append, splitLast, List.append_eq, ih]

/-- Embedding of `is_hashed_filename` (src/asset_hash.rs:20-41): split off the
extension at the last dot (must be "css" or "js"), then split the remainder at
its last dot; the trailing part must be exactly eight ASCII hex characters. -/
def is_hashed_filename (filename : List Char) : Bool :=
  match splitLast filename '.' with
  | none => false
  | some (nameWithHash, ext) =>
    ((ext == chars "css") || (ext == chars "js")) &&
    match splitLast nameWithHash '.' with
    | none => false
    | some (_, potentialHash) =>
      potentialHash.length == 8 && potentialHash.all isAsciiHexDigit

/-- The shape named by the claim and spec: `<name>.<8-hex-chars>.<css|js>`. -/
def hashedNamePattern (fn : List Char) : Prop :=
  ∃ name hash ext, fn = name ++ '.' :: (hash ++ '.' :: ext) ∧
    hash.length = 8 ∧ (∀ c ∈ hash, isAsciiHexDigit c) ∧
    (ext = chars "css" ∨ ext = chars "js")

theorem is_hashed_filename_iff (fn : List Char) :
    is_hashed_filename fn = true ↔ hashedNamePattern fn := by
  constructor
  · intro h
    unfold is_hashed_filename at h
    cases h1 : splitLast fn '.' with
    | none => rw [h1] at h; exact absurd h (by simp)
    | some p =>
      obtain ⟨nwh, ext⟩ := p
      rw [h1] at h
      simp only [Bool.and_eq_true] at h
      obtain ⟨hext, hrest⟩ := h
      cases h2 : splitLast nwh '.' with
      | none => rw [h2] at hrest; exact absurd hrest (by simp)
      | some q =>
        obtain ⟨name, hash⟩ := q
        rw [h2] at hrest
        simp only [Bool.and_eq_true, beq_iff_eq, List.all_eq_true] at hrest
        obtain ⟨hlen, hhex⟩ := hrest
        obtain ⟨hfn, _⟩ := splitLast_eq_some fn '.' nwh ext h1
        obtain ⟨hnwh, _⟩ := splitLast_eq_some nwh '.' name hash h2
        refine ⟨name, hash, ext, ?_, hlen, hhex, ?_⟩
        · rw [hfn, hnwh]
          simp
        · simp only [Bool.or_eq_true, beq_iff_eq] at hext
          exact hext
  · rintro ⟨name, hash, ext, hfn, hlen, hhex, hext⟩
    have hdotext : ('.' : Char) ∉ ext := by
      rcases hext with h | h <;> subst h <;> decide
    have hdothash : ('.' : Char) ∉ hash := by
      intro hmem
      have := hhex '.' hmem
      exact absurd this (by decide)
    have hfn' : fn = (name ++ '.' :: hash) ++ '.' :: ext := by
      rw [hfn]; simp
    have hall : hash.all isAsciiHexDigit = true := List.all_eq_true.mpr hhex
    unfold is_hashed_filename
    rw [hfn']
    simp only [splitLast_append _ _ _ hdotext, splitLast_append _ _ _ hdothash,
      hlen, hall]
    rcases hext with h | h <;> subst h <;> decide

/-- One regular file found by the recursive walk of `outputDir/static`,
identified by its relative path in components; `fileName` is the final
component, what Rust's `path.file_name()` yields. -/
def fileName (p : List String) : List Char := chars (p.getLastD "")

/-- Embedding of `cleanup_old_hashed_files` (src/asset_hash.rs:67-97) over an
abstract directory state: when the directory is missing nothing is removed
(count 0); otherwise every walked regular file whose file name passes
`is_hashed_filename` is removed, in walk order. The first component of the
result is the remove-file effect trace, the second the returned count. -/
def cleanup_old_hashed_files (dirExists : Bool) (files : List (List String)) :
    List (List String) × Nat :=
  if dirExists then
    let removed := files.filter (fun p => is_hashed_filename (fileName p))
    (removed, removed.length)
  else ([], 0)

/-- C7: cleanup removes exactly the regular files whose filename has the
shape `name.hash.ext` with an eight-character ASCII-hex hash and extension
css or js; every other file is left in place (and a missing directory removes
nothing). -/
theorem cleanup_old_hashed_files_spec (files : List (List String)) :
    (∀ p, p ∈ (cleanup_old_hashed_files true files).1 ↔
      p ∈ files ∧ hashedNamePattern (fileName p)) ∧
    (∀ fn : List Char, is_hashed_filename fn = true ↔ hashedNamePattern fn) ∧
    (cleanup_old_hashed_files false files).1 = [] := by
  refine ⟨?_, is_hashed_filename_iff, rfl⟩
  intro p
  simp only [cleanup_old_hashed_files, if_pos, List.mem_filter]
  exact and_congr_right (fun _ => is_hashed_filename_iff (fileName p))

/-! ## AssetHasher: hash_static_assets (src/asset_hash.rs:101-205) -/

/-- File-system effects performed by the asset hasher and static sync;
paths are lists of components. -/
inductive FsOp
  | removeFile (p : List String)
  | createDirAll (p : List String)
  | copyFile (src dst : List String)
deriving DecidableEq

/-- Abstract state of the static source tree and the output static
directory, as the walks of src/asset_hash.rs observe them. `walkFiles` are
the regular files under `staticDir` (paths relative to it, in walk order);
`outputWalkFiles` those under `outputDir/static`; `contents` gives each
source file's bytes. -/
structure StaticTree where
  staticExists : Bool
  walkFiles : List (List String)
  contents : List String → List Nat
  outputStaticExists : Bool
  outputWalkFiles : List (List String)

/-- Rust `Path::extension` on a file name: the part after the last dot,
none when there is no dot or the name starts with its only dot. -/
def rustExtension (fn : List Char) : Option (List Char) :=
  match splitLast fn '.' with
  | none => none
  | some (stem, ext) => if stem = [] then none else some ext

/-- Embedding of `hashed_filename` (src/asset_hash.rs:56-63): insert the hash
before the last dot, or append it after a dot when there is none. -/
def hashed_filename (original hash : List Char) : List Char :=
  match splitLast original '.' with
  | some (name, ext) => name ++ '.' :: (hash ++ '.' :: ext)
  | none => original ++ '.' :: hash

/-- Join path components with "/", as `to_string_lossy` renders a relative
path (src/asset_hash.rs:190-194). -/
def joinPath (p : List String) : List Char :=
  chars (String.intercalate "/" p)

/-- The per-file step of the hashing walk (src/asset_hash.rs:125-198):
skip files whose extension is not css/js and files already named like hashed
artifacts; otherwise hash the content, build the hashed name, and produce the
manifest entry plus the mkdir/copy effects. -/
def hashOneFile (hashFn : List Nat → List Char) (outStatic : List String)
    (contents : List String → List Nat) (rel : List String) :
    Option ((List Char × List Char) × List FsOp) :=
  let fn := fileName rel
  let ext := (rustExtension fn).getD []
  if ext ≠ chars "css" ∧ ext ≠ chars "js" then none
  else if is_hashed_filename fn then none
  else
    let hash := hashFn (contents rel)
    let hashedName := hashed_filename fn hash
    let destRel := rel.dropLast ++ [String.mk hashedName]
    some ((joinPath rel, chars "/static/" ++ joinPath destRel),
      [FsOp.createDirAll (outStatic ++ destRel.dropLast),
       FsOp.copyFile rel (outStatic ++ destRel)])

/-- Embedding of `hash_static_assets` (src/asset_hash.rs:101-205): when the
static directory does not exist, return the empty manifest at once; otherwise
clean up stale hashed files under `outputDir/static`, create that directory,
and walk the static tree hashing eligible files. The result pairs the
manifest (association list in insertion order; the `HashMap` keys, being
distinct walk paths, are unique) with the trace of file-system effects.
The file-system operations themselves are modelled as always succeeding, so
the error branch of the Rust `Result` is never taken by the model. -/
def hash_static_assets (hashFn : List Nat → List Char)
    (outputDir : List String) (fs : StaticTree) :
    Except Unit (List (List Char × List Char) × List FsOp) :=
  if fs.staticExists then
    let outStatic := outputDir ++ ["static"]
    let cleanupOps :=
      ((cleanup_old_hashed_files fs.outputStaticExists fs.outputWalkFiles).1).map
        (fun p => FsOp.removeFile (outStatic ++ p))
    let results := fs.walkFiles.filterMap (hashOneFile hashFn outStatic fs.contents)
    .ok (results.map Prod.fst,
      cleanupOps ++ [FsOp.createDirAll outStatic] ++ (results.map Prod.snd).flatten)
  else
    .ok ([], [])

/-- C6: when the static directory does not exist, `hash_static_assets`
succeeds with an empty manifest and performs no file-system operation at all
(no cleanup, no directory creation, no copying). -/
theorem hash_static_assets_missing_dir (hashFn : List Nat → List Char)
    (outputDir : List String) (fs : StaticTree)
    (h : fs.staticExists = false) :
    hash_static_assets hashFn outputDir fs = .ok ([], []) := by
  unfold hash_static_assets
  rw [h]
  simp

/-- C6 witness: a concrete tree with a missing static directory, whose output
side still holds files that would otherwise be cleaned up and copied. -/
theorem hash_static_assets_missing_dir_witness :
    hash_static_assets (fun _ => chars "deadbeef") ["out"]
      ⟨false, [["css", "style.css"]], fun _ => [1, 2, 3], true,
        [["style.ab12cd34.css"]]⟩ = .ok ([], []) :=
  hash_static_assets_missing_dir _ _ _ rfl

/-! ## StaticSync: copy_static_files / copy_root_static_files
(src/output.rs:54-177) -/

/-- Abstract state observed by the static-file sync: existence of the static
source directory, the walk of its regular files (paths relative to it), an
existence oracle for arbitrary paths, and the `should_copy_file`
size/modification-time comparison as an oracle on (source, destination). -/
structure SyncFS where
  staticDirExists : Bool
  walkFiles : List (List String)
  sourceExists : List String → Bool
  shouldCopy : List String → List String → Bool

/-- Embedding of `copy_root_static_files` (src/output.rs:129-177): for each
configured (output filename, relative source) pair, fail with the source path
when it does not exist, otherwise copy unless `should_copy_file` says the
destination is up to date. The map iteration order of the Rust `HashMap` is
abstracted as the order of the association list. -/
def copy_root_static_files (staticDir outputDir : List String)
    (rootStatic : List (String × List String)) (fs : SyncFS) :
    Except (List String) (List FsOp) :=
  match rootStatic with
  | [] => .ok []
  | (outName, srcRel) :: rest =>
    let src := staticDir ++ srcRel
    if fs.sourceExists src = false then .error src
    else
      let dest := outputDir ++ [outName]
      let ops :=
        if fs.shouldCopy src dest then
          [FsOp.createDirAll dest.dropLast, FsOp.copyFile src dest]
        else []
      (copy_root_static_files staticDir outputDir rest fs).map (fun t => ops ++ t)

/-- Embedding of `copy_static_files` (src/output.rs:54-126): return at once
when the static directory does not exist; otherwise create
`outputDir/static`, mirror every walked file that is not claimed by a
root-static entry and not up to date, then copy the root static files.
Errors from the root-static pass propagate (the `?` at src/output.rs:123). -/
def copy_static_files (staticDir outputDir : List String)
    (rootStatic : List (String × List String)) (fs : SyncFS) :
    Except (List String) (List FsOp) :=
  if fs.staticDirExists = false then .ok []
  else
    let outStatic := outputDir ++ ["static"]
    let mainOps := [FsOp.createDirAll outStatic] ++
      (fs.walkFiles.filterMap (fun rel =>
        if rootStatic.any (fun e => e.2 = rel) then none
        else
          let dest := outStatic ++ rel
          if fs.shouldCopy (staticDir ++ rel) dest then
            some [FsOp.createDirAll dest.dropLast,
              FsOp.copyFile (staticDir ++ rel) dest]
          else none)).flatten
    (copy_root_static_files staticDir outputDir rootStatic fs).map
      (fun rootOps => mainOps ++ rootOps)

/-- C8 counterexample: a configured root-static entry whose declared source
does not exist, yet `copy_static_files` succeeds — because the whole static
source directory is missing, the function returns Ok(()) at src/output.rs:59-62
before the root-static pass ever runs, contradicting the claim that every
missing declared source makes the operation fail. -/
theorem copy_static_files_missing_dir_counterexample :
    copy_static_files ["static"] ["out"] [("favicon.ico", ["favicon.ico"])]
      ⟨false, [], fun _ => false, fun _ _ => true⟩ = .ok [] ∧
    ∀ e, copy_static_files ["static"] ["out"] [("favicon.ico", ["favicon.ico"])]
      ⟨false, [], fun _ => false, fun _ _ => true⟩ ≠ .error e := by
  refine ⟨rfl, ?_⟩
  intro e h
  rw [show copy_static_files ["static"] ["out"] [("favicon.ico", ["favicon.ico"])]
      ⟨false, [], fun _ => false, fun _ _ => true⟩ = .ok [] from rfl] at h
  exact Except.noConfusion h

theorem copy_root_static_files_missing (staticDir outputDir : List String)
    (rootStatic : List (String × List String)) (fs : SyncFS)
    (entry : String × List String) (hmem : entry ∈ rootStatic)
    (hmissing : fs.sourceExists (staticDir ++ entry.2) = false) :
    ∃ e, copy_root_static_files staticDir outputDir rootStatic fs
        = .error (staticDir ++ e.2) ∧
      e ∈ rootStatic ∧ fs.sourceExists (staticDir ++ e.2) = false := by
  induction rootStatic with
  | nil => exact absurd hmem (by simp)
  | cons head rest ih =>
    obtain ⟨outName, srcRel⟩ := head
    by_cases hhead : fs.sourceExists (staticDir ++ srcRel) = false
    · refine ⟨(outName, srcRel), ?_, by simp, hhead⟩
      unfold copy_root_static_files
      rw [if_pos hhead]
    · have hentry : entry ∈ rest := by
        rcases List.mem_cons.mp hmem with h | h
        · exfalso
          apply hhead
          subst h
          exact hmissing
        · exact h
      obtain ⟨e, herr, hemem, hemissing⟩ := ih hentry
      refine ⟨e, ?_, List.mem_cons_of_mem _ hemem, hemissing⟩
      unfold copy_root_static_files
      rw [if_neg hhead]
      simp [herr]
      rfl

/-- C8 amended: provided the static source directory itself exists, a
configured root-static entry whose declared source file is missing makes the
whole `copy_static_files` pass fail, with the I/O error naming the source
path of a missing root-static entry. -/
theorem copy_static_files_missing_root_source (staticDir outputDir : List String)
    (rootStatic : List (String × List String)) (fs : SyncFS)
    (hdir : fs.staticDirExists = true)
    (entry : String × List String) (hmem : entry ∈ rootStatic)
    (hmissing : fs.sourceExists (staticDir ++ entry.2) = false) :
    ∃ e, copy_static_files staticDir outputDir rootStatic fs
        = .error (staticDir ++ e.2) ∧
      e ∈ rootStatic ∧ fs.sourceExists (staticDir ++ e.2) = false := by
  obtain ⟨e, herr, hemem, hemissing⟩ :=
    copy_root_static_files_missing staticDir outputDir rootStatic fs entry hmem hmissing
  refine ⟨e, ?_, hemem, hemissing⟩
  unfold copy_static_files
  rw [hdir]
  simp [herr]
  rfl

/-- C8 witness: one missing root-static source with the static directory
present; the sync fails naming static/favicon.ico. -/
theorem copy_static_files_missing_root_source_witness :
    ∃ e, copy_static_files ["static"] ["out"] [("favicon.ico", ["favicon.ico"])]
        ⟨true, [], fun _ => false, fun _ _ => true⟩ = .error (["static"] ++ e.2) ∧
      e ∈ [("favicon.ico", ["favicon.ico"])] ∧
      (fun (_ : List String) => false) (["static"] ++ e.2) = false :=
  copy_static_files_missing_root_source ["static"] ["out"]
    [("favicon.ico", ["favicon.ico"])]
    ⟨true, [], fun _ => false, fun _ _ => true⟩ rfl
    ("favicon.ico", ["favicon.ico"]) (by simp) rfl

/-! ## ContentPipeline: parallel load and transform (src/build.rs:130-184)

The stage is `files.into_par_iter().map(transform).collect::<Result<Vec,_>>()`
on a rayon worker pool. Rayon's indexed parallel collect gives every task the
slot of its original index, so the only scheduling freedom is the order in
which tasks complete; that order is modelled as an explicit completion
schedule (a permutation of the task indices). The per-file transform (content
type, sidecar load, markdown conversion, pattern resolution, output path
building, src/build.rs:135-182) is abstracted as `f`. -/

/-- One completed task writes its result into the slot of its original
index; an out-of-range index writes nothing. -/
def writeStep (f : α → Except ε β) (xs : List α)
    (slots : List (Option (Except ε β))) (i : Nat) :
    List (Option (Except ε β)) :=
  match xs[i]? with
  | some x => slots.set i (some (f x))
  | none => slots

/-- Play a whole completion schedule over initially empty slots. -/
def writeSlots (f : α → Except ε β) (xs : List α) (sched : List Nat) :
    List (Option (Except ε β)) :=
  sched.foldl (writeStep f xs) (List.replicate xs.length none)

/-- Ordered fail-fast collection: the coordinating thread reads the slots in
original index order; an empty slot (a task that never completed) gives none,
a stored error aborts the collection with that error. Runs with several
failed tasks are resolved in index order here, which no theorem relies on. -/
def collectSlots : List (Option (Except ε β)) → Option (Except ε (List β))
  | [] => some (.ok [])
  | none :: _ => none
  | some (.error e) :: _ => some (.error e)
  | some (.ok b) :: rest =>
    match collectSlots rest with
    | none => none
    | some (.error e) => some (.error e)
    | some (.ok bs) => some (.ok (b :: bs))

/-- The parallel load-and-transform stage under a completion schedule. -/
def par_load_transform (f : α → Except ε β) (xs : List α) (sched : List Nat) :
    Option (Except ε (List β)) :=
  collectSlots (writeSlots f xs sched)

theorem writeStep_length (f : α → Except ε β) (xs : List α)
    (slots : List (Option (Except ε β))) (i : Nat) :
    (writeStep f xs slots i).length = slots.length := by
  unfold writeStep
  cases xs[i]? <;> simp

theorem writeSlots_foldl_getElem (f : α → Except ε β) (xs : List α)
    (sched : List Nat) :
    ∀ (init : List (Option (Except ε β))), init.length = xs.length →
      ∀ i, (sched.foldl (writeStep f xs) init)[i]? =
        if i ∈ sched ∧ i < xs.length
        then (xs[i]?).map (fun x => some (f x))
        else init[i]? := by
  induction sched with
  | nil =>
    intro init hlen i
    simp
  | cons j rest ih =>
    intro init hlen i
    rw [List.foldl_cons]
    have hlen' : (writeStep f xs init j).length = xs.length := by
      rw [writeStep_length]; exact hlen
    rw [ih (writeStep f xs init j) hlen' i]
    by_cases hrest : i ∈ rest ∧ i < xs.length
    · rw [if_pos hrest, if_pos ⟨List.mem_cons_of_mem j hrest.1, hrest.2⟩]
    · rw [if_neg hrest]
      by_cases hij : i = j
      · subst hij
        by_cases hilen : i < xs.length
        · rw [if_pos ⟨List.mem_cons_self i rest, hilen⟩]
          obtain ⟨x, hx⟩ : ∃ x, xs[i]? = some x :=
            ⟨xs.get ⟨i, hilen⟩, List.getElem?_eq_getElem hilen⟩
          unfold writeStep
          rw [hx]
          rw [List.getElem?_set_self (by rw [hlen]; exact hilen)]
          rfl
        · rw [if_neg (fun hcontra => hilen hcontra.2)]
          have hx : xs[i]? = none := List.getElem?_eq_none (by omega)
          unfold writeStep
          rw [hx]
      · have hnotcons : ¬(i ∈ j :: rest ∧ i < xs.length) := by
          intro hcontra
          rcases List.mem_cons.mp hcontra.1 with h | h
          · exact hij h
          · exact hrest ⟨h, hcontra.2⟩
        rw [if_neg hnotcons]
        unfold writeStep
        cases xs[j]? with
        | some x => rw [List.getElem?_set_ne (fun h => hij h.symm)]
        | none => rfl

theorem writeSlots_of_perm (f : α → Except ε β) (xs : List α) (sched : List Nat)
    (hperm : sched.Perm (List.range xs.length)) :
    writeSlots f xs sched = xs.map (fun x => some (f x)) := by
  apply List.ext_getElem?
  intro i
  unfold writeSlots
  rw [writeSlots_foldl_getElem f xs sched _ (by simp) i]
  by_cases hilen : i < xs.length
  · have hmem : i ∈ sched := (hperm.mem_iff).mpr (List.mem_range.mpr hilen)
    rw [if_pos ⟨hmem, hilen⟩, List.getElem?_map]
  · rw [if_neg (fun hcontra => hilen hcontra.2), List.getElem?_map,
      List.getElem?_eq_none (by simp only [List.length_replicate]; omega),
      List.getElem?_eq_none (by omega)]
    rfl

theorem collectSlots_cons_err (e : ε) (l : List (Option (Except ε β))) :
    collectSlots (some (.error e) :: l) = some (.error e) := rfl

theorem collectSlots_cons_ok (b : β) (l : List (Option (Except ε β))) :
    collectSlots (some (.ok b) :: l) =
      match collectSlots l with
      | none => none
      | some (.error e) => some (.error e)
      | some (.ok bs) => some (.ok (b :: bs)) := by
  simp only [collectSlots]
  cases h : collectSlots l with
  | none => rfl
  | some r => cases r <;> rfl

theorem collectSlots_map (f : α → Except ε β) (xs : List α) :
    collectSlots (xs.map (fun x => some (f x))) = some (xs.mapM f) := by
  induction xs with
  | nil => rfl
  | cons x rest ih =>
    rw [List.map_cons, List.mapM_cons]
    cases hfx : f x with
    | error e =>
      rw [collectSlots_cons_err]
      rfl
    | ok b =>
      rw [collectSlots_cons_ok, ih]
      cases hrest : rest.mapM f with
      | error e => rfl
      | ok bs => rfl

theorem mapM_ok_pointwise (f : α → Except ε β) (xs : List α) (ys : List β)
    (h : xs.mapM f = .ok ys) :
    ys.length = xs.length ∧
    ∀ (i : Nat) (x : α), xs[i]? = some x → ∃ y, ys[i]? = some y ∧ f x = .ok y := by
  induction xs generalizing ys with
  | nil =>
    simp only [List.mapM_nil] at h
    cases h
    exact ⟨rfl, by intro i x hx; exact absurd hx (by simp)⟩
  | cons x rest ih =>
    rw [List.mapM_cons] at h
    cases hfx : f x with
    | error e =>
      rw [hfx] at h
      have h' : (Except.error e : Except ε (List β)) = .ok ys := h
      exact Except.noConfusion h'
    | ok b =>
      rw [hfx] at h
      cases hrest : rest.mapM f with
      | error e =>
        rw [hrest] at h
        have h' : (Except.error e : Except ε (List β)) = .ok ys := h
        exact Except.noConfusion h'
      | ok bs =>
        rw [hrest] at h
        have h' : b :: bs = ys :=
          Except.ok.inj (show (Except.ok (b :: bs) : Except ε (List β)) = .ok ys from h)
        subst h'
        obtain ⟨hlen, hpt⟩ := ih bs hrest
        refine ⟨by simp [hlen], ?_⟩
        intro i z hz
        cases i with
        | zero =>
          simp only [List.getElem?_cons_zero, Option.some.injEq] at hz
          subst hz
          exact ⟨b, by simp, hfx⟩
        | succ n =>
          simp only [List.getElem?_cons_succ] at hz ⊢
          exact hpt n z hz

theorem mapM_single_error (f : α → Except ε β) (xs : List α) (k : Nat) (x : α)
    (e : ε) (hk : xs[k]? = some x) (hfx : f x = .error e)
    (hothers : ∀ (j : Nat) (y : α), j ≠ k → xs[j]? = some y → ∃ b, f y = .ok b) :
    xs.mapM f = .error e := by
  induction xs generalizing k with
  | nil => exact absurd hk (by simp)
  | cons z rest ih =>
    rw [List.mapM_cons]
    cases k with
    | zero =>
      simp only [List.getElem?_cons_zero, Option.some.injEq] at hk
      subst hk
      rw [hfx]
      rfl
    | succ n =>
      simp only [List.getElem?_cons_succ] at hk
      obtain ⟨b, hb⟩ := hothers 0 z (by simp) (by simp)
      have hrest : rest.mapM f = .error e := by
        apply ih n hk
        intro j y hj hy
        exact hothers (j + 1) y (by omega) (by simpa using hy)
      rw [hb, hrest]
      rfl

/-- C2: under every completion schedule that is a permutation of the task
indices, the parallel stage refines the sequential in-order traversal
`xs.mapM f` (schedule independence); hence when every file transforms
successfully the i-th result is the transform of the i-th discovered path,
and when exactly one file fails the whole stage returns that file's error. -/
theorem par_load_transform_spec (f : α → Except ε β) (xs : List α)
    (sched : List Nat) (hperm : sched.Perm (List.range xs.length)) :
    (par_load_transform f xs sched = some (xs.mapM f)) ∧
    (∀ ys, xs.mapM f = .ok ys →
      ys.length = xs.length ∧
      ∀ (i : Nat) (x : α), xs[i]? = some x →
        ∃ y, ys[i]? = some y ∧ f x = .ok y) ∧
    (∀ (k : Nat) (x : α) (e : ε), xs[k]? = some x → f x = .error e →
      (∀ (j : Nat) (y : α), j ≠ k → xs[j]? = some y → ∃ b, f y = .ok b) →
      par_load_transform f xs sched = some (.error e)) := by
  have hrefine : par_load_transform f xs sched = some (xs.mapM f) := by
    unfold par_load_transform
    rw [writeSlots_of_perm f xs sched hperm, collectSlots_map]
  refine ⟨hrefine, fun ys h => mapM_ok_pointwise f xs ys h, ?_⟩
  intro k x e hk hfx hothers
  rw [hrefine, mapM_single_error f xs k x e hk hfx hothers]

/-- C2 witness: two discovered files completing out of order still collect in
discovery order; and a schedule where the failing middle file finishes last
still surfaces that file's error. -/
theorem par_load_transform_spec_witness :
    (par_load_transform (fun n : Nat => (Except.ok (n + 1) : Except String Nat))
      [10, 20] [1, 0] = some (.ok [11, 21])) ∧
    (par_load_transform
      (fun n : Nat =>
        if n = 20 then (Except.error "bad file" : Except String Nat)
        else .ok (n + 1))
      [10, 20, 30] [2, 0, 1] = some (.error "bad file")) := by
  constructor
  · have h := (par_load_transform_spec
      (fun n : Nat => (Except.ok (n + 1) : Except String Nat))
      [10, 20] [1, 0] (by decide)).1
    rw [h]
    rfl
  · have h := (par_load_transform_spec
      (fun n : Nat =>
        if n = 20 then (Except.error "bad file" : Except String Nat)
        else .ok (n + 1))
      [10, 20, 30] [2, 0, 1] (by decide)).2.2
    apply h 1 20 "bad file" rfl rfl
    intro j y hj hy
    rcases j with _ | _ | _ | n
    · have : y = 10 := by simpa using hy.symm
      subst this
      exact ⟨11, rfl⟩
    · exact absurd rfl hj
    · have : y = 30 := by simpa using hy.symm
      subst this
      exact ⟨31, rfl⟩
    · exact absurd hy (by simp)

/-! ## Orchestrator: stage sequencing (src/build.rs:30-50 `build` and
src/build.rs:110-288 `run_build`)

Each stage of a build invocation is recorded as one event; `build_trace` is
the sequence of events of the success path of `build`, in the order the
source performs them. -/

/-- The orchestrator's configuration inputs that determine which stages run;
`content_types` lists the keys of the content map in iteration order. -/
structure BuildConfig where
  asset_hashing_enabled : Bool
  asset_manifest_path : Option String
  content_types : List String
  sitemap_enabled : Bool
  rss_enabled : Bool
  redirects : List (String × String)

/-- One orchestration event. -/
inductive Stage
  | loadConfig
  | hashAssets
  | exportManifest
  | createEnv
  | staticSync
  | discoverContent
  | loadTransform
  | writePage (i : Nat)
  | writeTypeIndex (ct : String)
  | writeSiteIndex
  | writeSitemap
  | writeRss
  | writeRedirect (src : String)
deriving DecidableEq

/-- Events of `build` before `run_build` is entered (src/build.rs:30-50):
config load, asset hashing when enabled, manifest export when additionally a
manifest path is configured, template-environment creation. -/
def pre_trace (cfg : BuildConfig) : List Stage :=
  [Stage.loadConfig]
  ++ (if cfg.asset_hashing_enabled then [Stage.hashAssets] else [])
  ++ (if cfg.asset_hashing_enabled ∧ cfg.asset_manifest_path.isSome
      then [Stage.exportManifest] else [])
  ++ [Stage.createEnv]

/-- Write events of `run_build` after the content stage (src/build.rs:192-284):
one write per page, one index per declared content type, the site index, then
the optional sitemap, RSS feed and redirect stubs. -/
def write_trace (cfg : BuildConfig) (pages : Nat) : List Stage :=
  (List.range pages).map Stage.writePage
  ++ cfg.content_types.map Stage.writeTypeIndex
  ++ [Stage.writeSiteIndex]
  ++ (if cfg.sitemap_enabled then [Stage.writeSitemap] else [])
  ++ (if cfg.rss_enabled then [Stage.writeRss] else [])
  ++ (if cfg.redirects ≠ []
      then cfg.redirects.map (fun r => Stage.writeRedirect r.1) else [])

/-- Events of `run_build` (src/build.rs:110-288): static sync first, then
content discovery, then the parallel load/transform, then all writes. -/
def run_build_trace (cfg : BuildConfig) (pages : Nat) : List Stage :=
  [Stage.staticSync, Stage.discoverContent, Stage.loadTransform]
  ++ write_trace cfg pages

/-- The success-path event sequence of one `build` invocation
(src/build.rs:30-50 followed by src/build.rs:110-288). -/
def build_trace (cfg : BuildConfig) (pages : Nat) : List Stage :=
  pre_trace cfg ++ run_build_trace cfg pages

/-- Every event satisfying `p` occurs strictly before every event
satisfying `q` in the trace. -/
def allBefore (tr : List Stage) (p q : Stage → Prop) : Prop :=
  ∀ (i j : Nat) (a b : Stage), tr[i]? = some a → p a → tr[j]? = some b → q b → i < j

theorem allBefore_append (l₁ l₂ : List Stage) (p q : Stage → Prop)
    (h₁ : ∀ a ∈ l₂, ¬ p a) (h₂ : ∀ a ∈ l₁, ¬ q a) :
    allBefore (l₁ ++ l₂) p q := by
  intro i j a b hi hpa hj hqb
  by_cases hij : i < l₁.length
  · by_cases hjl : j < l₁.length
    · exfalso
      rw [List.getElem?_append_left hjl] at hj
      exact h₂ b (List.getElem?_mem hj) hqb
    · omega
  · exfalso
    rw [List.getElem?_append_right (by omega)] at hi
    exact h₁ a (List.getElem?_mem hi) hpa

theorem pre_trace_mem (cfg : BuildConfig) (a : Stage) (ha : a ∈ pre_trace cfg) :
    a = Stage.loadConfig ∨ a = Stage.hashAssets ∨ a = Stage.exportManifest ∨
    a = Stage.createEnv := by
  unfold pre_trace at ha
  split_ifs at ha <;> simp at ha <;> tauto

theorem hashAssets_not_mem_run (cfg : BuildConfig) (pages : Nat) :
    Stage.hashAssets ∉ run_build_trace cfg pages := by
  intro h
  unfold run_build_trace write_trace at h
  split_ifs at h <;> simp at h

theorem staticSync_not_mem_write (cfg : BuildConfig) (pages : Nat) :
    Stage.staticSync ∉ write_trace cfg pages := by
  intro h
  unfold write_trace at h
  split_ifs at h <;> simp at h

theorem loadTransform_not_mem_write (cfg : BuildConfig) (pages : Nat) :
    Stage.loadTransform ∉ write_trace cfg pages := by
  intro h
  unfold write_trace at h
  split_ifs at h <;> simp at h

/-- C1 counterexample: with asset hashing enabled, the concrete build trace
places `hashAssets` (index 1, inside `build`, src/build.rs:34-41) before
`staticSync` (index 3, the first step of `run_build`, src/build.rs:119), so
static-asset synchronization does not complete before asset hashing as the
claim requires. -/
theorem build_trace_claimed_order_counterexample :
    (build_trace ⟨true, none, ["blog"], true, true, []⟩ 1)[1]?
      = some Stage.hashAssets ∧
    (build_trace ⟨true, none, ["blog"], true, true, []⟩ 1)[3]?
      = some Stage.staticSync ∧
    ¬ allBefore (build_trace ⟨true, none, ["blog"], true, true, []⟩ 1)
      (fun s => s = Stage.staticSync) (fun s => s = Stage.hashAssets) := by
  refine ⟨by rfl, by rfl, ?_⟩
  intro h
  have h31 := h 3 1 Stage.staticSync Stage.hashAssets (by rfl) rfl (by rfl) rfl
  omega

/-- C1 amended: in every build invocation with asset hashing enabled, asset
hashing completes before static-asset synchronization begins, and both asset
hashing and static sync complete before any page is rendered or written; the
parallel content transform likewise completes before any page write. -/
theorem build_trace_stage_order (cfg : BuildConfig) (pages : Nat)
    (h : cfg.asset_hashing_enabled = true) :
    allBefore (build_trace cfg pages)
      (fun s => s = Stage.hashAssets) (fun s => s = Stage.staticSync) ∧
    allBefore (build_trace cfg pages)
      (fun s => s = Stage.hashAssets) (fun s => ∃ i, s = Stage.writePage i) ∧
    allBefore (build_trace cfg pages)
      (fun s => s = Stage.staticSync) (fun s => ∃ i, s = Stage.writePage i) ∧
    allBefore (build_trace cfg pages)
      (fun s => s = Stage.loadTransform) (fun s => ∃ i, s = Stage.writePage i) := by
  have hpre_no_write : ∀ a ∈ pre_trace cfg, ¬ ∃ i, a = Stage.writePage i := by
    intro a ha ⟨i, hi⟩
    subst hi
    rcases pre_trace_mem cfg _ ha with h | h | h | h <;> exact Stage.noConfusion h
  refine ⟨?_, ?_, ?_, ?_⟩
  · exact allBefore_append _ _ _ _
      (fun a ha hpa => hashAssets_not_mem_run cfg pages (hpa ▸ ha))
      (fun a ha hqa => by
        subst hqa
        rcases pre_trace_mem cfg _ ha with h | h | h | h <;> exact Stage.noConfusion h)
  · exact allBefore_append _ _ _ _
      (fun a ha hpa => hashAssets_not_mem_run cfg pages (hpa ▸ ha))
      hpre_no_write
  · have hsplit : build_trace cfg pages =
        (pre_trace cfg ++ [Stage.staticSync, Stage.discoverContent,
          Stage.loadTransform]) ++ write_trace cfg pages := by
      unfold build_trace run_build_trace
      rw [List.append_assoc]
    rw [hsplit]
    refine allBefore_append _ _ _ _
      (fun a ha hpa => staticSync_not_mem_write cfg pages (hpa ▸ ha)) ?_
    intro a ha ⟨i, hi⟩
    subst hi
    rcases List.mem_append.mp ha with h | h
    · exact hpre_no_write _ h ⟨i, rfl⟩
    · simp at h
  · have hsplit : build_trace cfg pages =
        (pre_trace cfg ++ [Stage.staticSync, Stage.discoverContent,
          Stage.loadTransform]) ++ write_trace cfg pages := by
      unfold build_trace run_build_trace
      rw [List.append_assoc]
    rw [hsplit]
    refine allBefore_append _ _ _ _
      (fun a ha hpa => loadTransform_not_mem_write cfg pages (hpa ▸ ha)) ?_
    intro a ha ⟨i, hi⟩
    subst hi
    rcases List.mem_append.mp ha with h | h
    · exact hpre_no_write _ h ⟨i, rfl⟩
    · simp at h

/-- C1 witness: the amended ordering instantiated on a concrete configuration
with hashing enabled, a manifest export path, one content type, sitemap, RSS
and a redirect, over two pages. -/
theorem build_trace_stage_order_witness :
    allBefore (build_trace ⟨true, some "m.json", ["blog"], true, true,
        [("/old", "/new")]⟩ 2)
      (fun s => s = Stage.hashAssets) (fun s => s = Stage.staticSync) ∧
    allBefore (build_trace ⟨true, some "m.json", ["blog"], true, true,
        [("/old", "/new")]⟩ 2)
      (fun s => s = Stage.hashAssets) (fun s => ∃ i, s = Stage.writePage i) ∧
    allBefore (build_trace ⟨true, some "m.json", ["blog"], true, true,
        [("/old", "/new")]⟩ 2)
      (fun s => s = Stage.staticSync) (fun s => ∃ i, s = Stage.writePage i) ∧
    allBefore (build_trace ⟨true, some "m.json", ["blog"], true, true,
        [("/old", "/new")]⟩ 2)
      (fun s => s = Stage.loadTransform) (fun s => ∃ i, s = Stage.writePage i) :=
  build_trace_stage_order _ 2 rfl

/-! ## RSS feed generation (src/rss.rs) -/

/-- A `time::OffsetDateTime`: a civil date-time plus a UTC offset in seconds.
Ordering of two values compares the instants they denote. -/
structure DateTimeRec where
  year : Int
  month : Nat
  day : Nat
  hour : Nat
  minute : Nat
  second : Nat
  offsetSeconds : Int
deriving DecidableEq

/-- Days since 1970-01-01 of a civil date (standard era/year-of-era civil
calendar computation; Lean's `Int` division truncates toward zero exactly as
the reference integer computation does). -/
def daysFromCivil (year : Int) (month day : Nat) : Int :=
  let y : Int := if month ≤ 2 then year - 1 else year
  let era : Int := (if 0 ≤ y then y else y - 399) / 400
  let yoe : Int := y - era * 400
  let mp : Int := (Int.ofNat month + 9) % 12
  let doy : Int := (153 * mp + 2) / 5 + Int.ofNat day - 1
  let doe : Int := yoe * 365 + yoe / 4 - yoe / 100 + doy
  era * 146097 + doe - 719468

/-- The instant a `DateTimeRec` denotes, in seconds since the epoch; this is
the key under which `OffsetDateTime` values compare. -/
def dateInstant (d : DateTimeRec) : Int :=
  daysFromCivil d.year d.month d.day * 86400
    + (Int.ofNat (d.hour * 3600 + d.minute * 60 + d.second)) - d.offsetSeconds

/-- Short weekday name; day 0 of the epoch (1970-01-01) was a Thursday. -/
def weekdayName (year : Int) (month day : Nat) : List Char :=
  chars ((["Sun", "Mon", "Tue", "Wed", "Thu", "Fri", "Sat"].getD
    (((daysFromCivil year month day + 4) % 7 + 7) % 7).toNat "Sun"))

/-- Short month name, months numbered from 1. -/
def monthName (m : Nat) : List Char :=
  chars ((["Jan", "Feb", "Mar", "Apr", "May", "Jun", "Jul", "Aug", "Sep",
    "Oct", "Nov", "Dec"].getD (m - 1) "Jan"))

/-- A number zero-padded to two digits. -/
def pad2 (n : Nat) : List Char :=
  if n < 10 then '0' :: chars (Nat.repr n) else chars (Nat.repr n)

/-- Model of the well-known RFC 2822 format of the external time crate, which
`format_rfc2822` (src/rss.rs:154-160) delegates to, shaped
"Ddd, DD Mon YYYY HH:MM:SS +hhmm". src/rss.rs substitutes the empty string
whenever the external formatter rejects the value (year outside the
four-digit RFC range or an offset that is not a whole number of minutes),
via `unwrap_or_else` at src/rss.rs:159. -/
def format_rfc2822 (d : DateTimeRec) : List Char :=
  if 1900 ≤ d.year ∧ d.year ≤ 9999 ∧ d.offsetSeconds % 60 = 0 then
    weekdayName d.year d.month d.day ++ chars ", " ++ pad2 d.day ++ [' ']
    ++ monthName d.month ++ [' '] ++ chars (Nat.repr d.year.toNat) ++ [' ']
    ++ pad2 d.hour ++ [':'] ++ pad2 d.minute ++ [':'] ++ pad2 d.second ++ [' ']
    ++ [if d.offsetSeconds < 0 then '-' else '+']
    ++ pad2 (d.offsetSeconds.natAbs / 3600)
    ++ pad2 (d.offsetSeconds.natAbs % 3600 / 60)
  else []

/-- Content metadata (src/content.rs `ContentMeta`); the fields no embedded
function reads (tags, template override, cover, extra map) are omitted. -/
structure ContentMeta where
  title : List Char
  date : DateTimeRec
  author : List Char
deriving DecidableEq

/-- A content item: metadata plus the raw markdown body (src/content.rs). -/
structure Content where
  meta : ContentMeta
  data : List Char
deriving DecidableEq

/-- A loaded content item ready for rendering (src/build.rs:21-27). -/
structure LoadedContent where
  path : List String
  content : Content
  html : List Char
  content_type : String
  output_path : List String
deriving DecidableEq

/-- The site-level configuration fields read by the RSS generator
(src/config.rs `SiteConfig`). -/
structure SiteConfig where
  title : List Char
  tagline : List Char
  domain : List Char
  author : List Char
  output_dir : List String
  clean_urls : Bool
deriving DecidableEq

/-- Site plus content-type configuration (src/config.rs `Config`), the
content map as an association list. -/
structure Config where
  site : SiteConfig
  content : List (String × ContentTypeConfig)
deriving DecidableEq

/-- Embedding of `should_include_in_rss` (src/rss.rs:81-87): include unless
the content type is configured with `rss_include` explicitly false. -/
def should_include_in_rss (config : Config) (content_type : String) : Bool :=
  match config.content.lookup content_type with
  | none => true
  | some ct => ct.rss_include.getD true

/-- Embedding of `xml_escape` (src/rss.rs:177-190). -/
def xml_escape (s : List Char) : List Char :=
  (s.map (fun c =>
    if c = '&' then chars "&amp;"
    else if c = '<' then chars "&lt;"
    else if c = '>' then chars "&gt;"
    else if c = '"' then chars "&quot;"
    else if c = '\'' then chars "&apos;"
    else [c])).flatten

/-- The sorted, filtered item list of `generate_rss` (src/rss.rs:54-61):
keep the non-excluded entries and stable-sort them by metadata date
descending (`items.sort_by(|a, b| b.content.meta.date.cmp(&a.content.meta.date))`). -/
def rssItems (config : Config) (loaded : List LoadedContent) : List LoadedContent :=
  (loaded.filter (fun lc => should_include_in_rss config lc.content_type)).mergeSort
    (fun a b =>
      decide (dateInstant b.content.meta.date ≤ dateInstant a.content.meta.date))

/-- The item URL of `format_item` (src/rss.rs:101-120): strip the output
directory, join with slashes, and under clean URLs replace a trailing
"/index.html" with "/". (The Windows-separator fallback of src/rss.rs:114
never fires on component-modelled paths.) -/
def itemUrl (config : Config) (content : LoadedContent) : List Char :=
  let base_url := chars "https://" ++ config.site.domain
  let relative_path :=
    (pathStrip config.site.output_dir content.output_path).getD content.output_path
  let raw_path := joinPath relative_path
  if config.site.clean_urls then
    base_url ++ ['/'] ++
      (match stripSuffixL raw_path (chars "/index.html") with
       | some s => s ++ chars "/"
       | none => raw_path)
  else base_url ++ ['/'] ++ raw_path

/-- The part of `format_item` (src/rss.rs:90-143) pushed before the pubDate
line: item open tag, escaped title, link and guid, optional escaped excerpt
description, escaped author. The excerpt computation (src/rss.rs:126-130,
`get_excerpt_html` with marker "## Context") converts markdown through the
external collaborator and is abstracted as `excerptOf` applied to the raw
body. -/
def format_item_head (excerptOf : List Char → List Char) (config : Config)
    (content : LoadedContent) : List Char :=
  let url := itemUrl config content
  let excerpt := excerptOf content.content.data
  chars "    <item>\n"
  ++ chars "      <title>" ++ xml_escape content.content.meta.title ++ chars "</title>\n"
  ++ chars "      <link>" ++ url ++ chars "</link>\n"
  ++ chars "      <guid>" ++ url ++ chars "</guid>\n"
  ++ (if excerpt ≠ [] then
        chars "      <description>" ++ xml_escape excerpt ++ chars "</description>\n"
      else [])
  ++ chars "      <author>" ++ xml_escape content.content.meta.author ++ chars "</author>\n"

/-- Embedding of `format_item` (src/rss.rs:90-152): the head above, then the
pubDate line in RFC 2822, then the closing tag. -/
def format_item (excerptOf : List Char → List Char) (config : Config)
    (content : LoadedContent) : List Char :=
  format_item_head excerptOf config content
  ++ chars "      <pubDate>" ++ format_rfc2822 content.content.meta.date
  ++ chars "</pubDate>\n"
  ++ chars "    </item>\n"

/-- The channel header of `generate_rss` (src/rss.rs:26-52). -/
def rssHeader (config : Config) : List Char :=
  let base_url := chars "https://" ++ config.site.domain
  chars "<?xml version=\"1.0\" encoding=\"UTF-8\"?>" ++ ['\n']
  ++ chars "<rss version=\"2.0\" xmlns:atom=\"http://www.w3.org/2005/Atom\">" ++ ['\n']
  ++ chars "  <channel>\n"
  ++ chars "    <title>" ++ xml_escape config.site.title ++ chars "</title>\n"
  ++ chars "    <link>" ++ base_url ++ chars "</link>\n"
  ++ chars "    <description>" ++ xml_escape config.site.tagline ++ chars "</description>\n"
  ++ chars "    <language>en</language>\n"
  ++ chars "    <managingEditor>" ++ xml_escape config.site.author ++ chars "</managingEditor>\n"
  ++ chars "    <atom:link href=\"" ++ base_url
  ++ chars "/feed.xml\" rel=\"self\" type=\"application/rss+xml\"/>\n"

/-- Embedding of `generate_rss` (src/rss.rs:21-73): channel header, one
formatted item per filtered-and-sorted entry, closing tags. -/
def generate_rss (excerptOf : List Char → List Char) (config : Config)
    (loaded : List LoadedContent) : List Char :=
  rssHeader config
  ++ ((rssItems config loaded).map (format_item excerptOf config)).flatten
  ++ chars "  </channel>\n" ++ chars "</rss>\n"

/-- C9: the RSS feed contains exactly one item per non-excluded entry --
entries are kept when their type is unconfigured or `rss_include` unset and
dropped only on an explicit false; the emitted items are the kept entries
sorted by metadata date descending; and every item carries its entry's date
as an RFC 2822 pubDate element. -/
theorem generate_rss_spec (excerptOf : List Char → List Char) (config : Config)
    (loaded : List LoadedContent) :
    (∀ ct, should_include_in_rss config ct = false ↔
      ∃ ctc, config.content.lookup ct = some ctc ∧ ctc.rss_include = some false) ∧
    (rssItems config loaded).Perm
      (loaded.filter (fun lc => should_include_in_rss config lc.content_type)) ∧
    List.Pairwise (fun a b =>
      dateInstant b.content.meta.date ≤ dateInstant a.content.meta.date)
      (rssItems config loaded) ∧
    (generate_rss excerptOf config loaded = rssHeader config
      ++ ((rssItems config loaded).map (format_item excerptOf config)).flatten
      ++ chars "  </channel>\n" ++ chars "</rss>\n") ∧
    (∀ lc : LoadedContent, ∃ pre post, format_item excerptOf config lc
      = pre ++ chars "<pubDate>" ++ format_rfc2822 lc.content.meta.date
        ++ chars "</pubDate>" ++ post) := by
  refine ⟨?_, List.mergeSort_perm _ _, ?_, rfl, ?_⟩
  · intro ct
    constructor
    · intro h
      unfold should_include_in_rss at h
      cases hl : config.content.lookup ct with
      | none =>
        rw [hl] at h
        exact absurd h (by simp)
      | some ctc =>
        rw [hl] at h
        have h' : ctc.rss_include.getD true = false := h
        refine ⟨ctc, rfl, ?_⟩
        cases hri : ctc.rss_include with
        | none =>
          rw [hri] at h'
          exact absurd h' (by simp [Option.getD])
        | some b =>
          rw [hri] at h'
          simp only [Option.getD] at h'
          rw [h']
    · rintro ⟨ctc, hl, hri⟩
      unfold should_include_in_rss
      rw [hl]
      show ctc.rss_include.getD true = false
      rw [hri]
      rfl
  · unfold rssItems
    refine List.Pairwise.imp ?_ (List.sorted_mergeSort ?_ ?_
      (loaded.filter (fun lc => should_include_in_rss config lc.content_type)))
    · intro a b hab
      exact of_decide_eq_true hab
    · intro a b c hab hbc
      simp only [decide_eq_true_eq] at hab hbc ⊢
      omega
    · intro a b
      simp only [Bool.or_eq_true, decide_eq_true_eq]
      omega
  · intro lc
    refine ⟨format_item_head excerptOf config lc ++ chars "      ",
      chars "\n    </item>\n", ?_⟩
    unfold format_item
    have h1 : chars "      <pubDate>" = chars "      " ++ chars "<pubDate>" := by
      decide
    have h2 : chars "</pubDate>\n" = chars "</pubDate>" ++ chars "\n" := by
      decide
    have h3 : chars "\n    </item>\n" = chars "\n" ++ chars "    </item>\n" := by
      decide
    rw [h1, h2, h3]
    simp [List.append_assoc]

/-! ## Header anchors (src/utils.rs:34-69 `slugify`, 128-142
`strip_html_tags`, 156-217 `add_header_anchors`) -/

/-- First pass of `slugify` (src/utils.rs:37-45): lowercase letters pass,
uppercase are lowered, digits pass, space and underscore become hyphens,
hyphens stay, everything else is dropped. -/
def slugifyKeep (c : Char) : List Char :=
  if 'A' ≤ c ∧ c ≤ 'Z' then [c.toLower]
  else if ('a' ≤ c ∧ c ≤ 'z') ∨ ('0' ≤ c ∧ c ≤ '9') then [c]
  else if c = ' ' ∨ c = '_' then ['-']
  else if c = '-' then ['-']
  else []

/-- Second pass of `slugify` (src/utils.rs:47-61): collapse hyphen runs,
dropping leading hyphens because the flag starts true. -/
def collapseHyphens : List Char → Bool → List Char
  | [], _ => []
  | c :: rest, prevHyphen =>
    if c = '-' then
      (if prevHyphen then [] else ['-']) ++ collapseHyphens rest true
    else c :: collapseHyphens rest false

/-- Embedding of `slugify` (src/utils.rs:34-69). -/
def slugify (text : List Char) : List Char :=
  let collapsed := collapseHyphens ((text.map slugifyKeep).flatten) true
  if collapsed.getLast? = some '-' then collapsed.dropLast else collapsed

/-- Embedding of `strip_html_tags` (src/utils.rs:128-142) with the
`in_tag` flag explicit. -/
def stripTagsAux : List Char → Bool → List Char
  | [], _ => []
  | c :: rest, inTag =>
    if c = '<' then stripTagsAux rest true
    else if c = '>' then stripTagsAux rest false
    else if inTag then stripTagsAux rest inTag
    else c :: stripTagsAux rest inTag

/-- `strip_html_tags` starts outside any tag. -/
def strip_html_tags (html : List Char) : List Char := stripTagsAux html false

/-- Rust `str::find` for a pattern: index of the first occurrence. -/
def findSub (l pat : List Char) : Option Nat :=
  match l with
  | [] => if pat = [] then some 0 else none
  | _ :: rest =>
    if pat.isPrefixOf l then some 0
    else (findSub rest pat).map (fun i => i + 1)

/-- The decimal digit characters used by Rust's integer Display. -/
def digitChar (d : Nat) : Char :=
  match d with
  | 0 => '0' | 1 => '1' | 2 => '2' | 3 => '3' | 4 => '4'
  | 5 => '5' | 6 => '6' | 7 => '7' | 8 => '8' | _ => '9'

/-- Inverse digit table. -/
def digitVal (c : Char) : Nat :=
  if c = '0' then 0 else if c = '1' then 1 else if c = '2' then 2
  else if c = '3' then 3 else if c = '4' then 4 else if c = '5' then 5
  else if c = '6' then 6 else if c = '7' then 7 else if c = '8' then 8 else 9

/-- Decimal rendering of a natural number (Rust `{}` for usize), with a fuel
argument that the wrapper makes large enough; each step divides by ten, so
any fuel above the number itself suffices. -/
def natCharsAux : Nat → Nat → List Char
  | 0, _ => []
  | fuel + 1, n =>
    if n < 10 then [digitChar n]
    else natCharsAux fuel (n / 10) ++ [digitChar (n % 10)]

/-- Decimal rendering of a natural number. -/
def natChars (n : Nat) : List Char := natCharsAux (n + 1) n

/-- The value a digit string denotes. -/
def digitsVal (l : List Char) : Nat :=
  l.foldl (fun acc c => acc * 10 + digitVal c) 0

/-- The duplicate-slug bookkeeping of src/utils.rs:187-193: the chosen id is
the bare slug on first sight and `slug-count` afterwards, and the count map
(a `HashMap`, modelled as an association list) is bumped after choosing. -/
def bumpCount : List (List Char × Nat) → List Char → List (List Char × Nat)
  | [], base => [(base, 1)]
  | (k, v) :: rest, base =>
    if k = base then (k, v + 1) :: rest else (k, v) :: bumpCount rest base

/-- Choose the id for one header with base slug `base` and update the
counts (src/utils.rs:187-193). -/
def nextSlug (counts : List (List Char × Nat)) (base : List Char) :
    List Char × List (List Char × Nat) :=
  (match counts.lookup base with
   | some n => base ++ '-' :: natChars n
   | none => base,
   bumpCount counts base)

/-- The closing tag "</hN>" searched at src/utils.rs:179-180. -/
def closeTag (lv : Char) : List Char := '<' :: '/' :: 'h' :: lv :: ['>']

/-- The header-shape test of src/utils.rs:172-177: characters 2 and 3 of the
candidate must be a level digit 1-6 followed by a space or the closing
angle bracket; returns the level character when the shape matches. -/
def headerLevelOk (rem : List Char) : Option Char :=
  match rem[2]?, rem[3]? with
  | some lv, some c =>
    if ('1' ≤ lv ∧ lv ≤ '6') ∧ (c = '>' ∨ c = ' ') then some lv else none
  | _, _ => none

/-- The scanning loop of `add_header_anchors` (src/utils.rs:159-216). Each
iteration consumes at least one character of `remaining`, so the loop is
embedded with a structural fuel bounded below by the remaining length plus
one; the fuel-exhausted branch is never reached from `add_header_anchors`.
When a "<h" within the last three characters is found, the source pushes the
tail, breaks, and then pushes the unchanged tail once more after the loop
(src/utils.rs:167-170 and 215), hence the doubled tail in that branch. -/
def addAnchorsFuel : Nat → List Char → List (List Char × Nat) → List Char
  | 0, remaining, _ => remaining
  | fuel + 1, remaining, counts =>
    (findSub remaining (chars "<h")).elim remaining (fun start =>
      let pre := remaining.take start
      let rem := remaining.drop start
      if rem.length < 4 then pre ++ rem ++ rem
      else
        (headerLevelOk rem).elim
          (pre ++ rem.take 1 ++ addAnchorsFuel fuel (rem.drop 1) counts)
          (fun lv =>
            (findSub rem (closeTag lv)).elim
              (pre ++ rem.take 1 ++ addAnchorsFuel fuel (rem.drop 1) counts)
              (fun closePos =>
                (findSub (rem.take closePos) (chars ">")).elim
                  (pre ++ rem.take 1 ++ addAnchorsFuel fuel (rem.drop 1) counts)
                  (fun openEnd =>
                    let content := (rem.take closePos).drop (openEnd + 1)
                    let sc := nextSlug counts (slugify (strip_html_tags content))
                    pre ++ chars "<h" ++ [lv] ++ chars " id=\"" ++ sc.1
                      ++ chars "\"><a href=\"#" ++ sc.1 ++ chars "\">" ++ content
                      ++ chars "</a></h" ++ [lv] ++ chars ">"
                      ++ addAnchorsFuel fuel (rem.drop (closePos + 5)) sc.2))))

/-- Embedding of `add_header_anchors` (src/utils.rs:156-217). -/
def add_header_anchors (html : List Char) : List Char :=
  addAnchorsFuel (html.length + 1) html []

/-- Observer: the values of the id attributes of a document, in order. -/
def extractIdsFuel : Nat → List Char → List (List Char)
  | 0, _ => []
  | fuel + 1, l =>
    match findSub l (chars "id=\"") with
    | none => []
    | some i =>
      (l.drop (i + 4)).takeWhile (fun c => c != '"')
        :: extractIdsFuel fuel ((l.drop (i + 4)).dropWhile (fun c => c != '"'))

/-- Observer wrapper with sufficient fuel. -/
def extractIds (l : List Char) : List (List Char) :=
  extractIdsFuel (l.length + 1) l

theorem digitVal_digitChar (d : Nat) (h : d < 10) : digitVal (digitChar d) = d := by
  interval_cases d <;> rfl

theorem digitsVal_append_digit (a : List Char) (c : Char) :
    digitsVal (a ++ [c]) = digitsVal a * 10 + digitVal c := by
  unfold digitsVal
  rw [List.foldl_append]
  rfl

theorem digitsVal_natCharsAux :
    ∀ fuel n, n < fuel → digitsVal (natCharsAux fuel n) = n := by
  intro fuel
  induction fuel with
  | zero =>
    intro n h
    omega
  | succ fuel ih =>
    intro n h
    unfold natCharsAux
    by_cases h10 : n < 10
    · rw [if_pos h10]
      show digitsVal [digitChar n] = n
      unfold digitsVal
      simp only [List.foldl_cons, List.foldl_nil, Nat.zero_mul, Nat.zero_add]
      exact digitVal_digitChar n h10
    · rw [if_neg h10, digitsVal_append_digit, ih (n / 10) (by omega),
        digitVal_digitChar (n % 10) (by omega)]
      omega

theorem natChars_inj (m n : Nat) (h : natChars m = natChars n) : m = n := by
  have hm := digitsVal_natCharsAux (m + 1) m (by omega)
  have hn := digitsVal_natCharsAux (n + 1) n (by omega)
  unfold natChars at h
  rw [← hm, ← hn, h]

/-- The id-assignment mechanism of the anchor loop in isolation: thread the
counts through a list of base slugs. -/
def assignIdsAux (counts : List (List Char × Nat)) :
    List (List Char) → List (List Char)
  | [] => []
  | base :: rest =>
    (nextSlug counts base).1 :: assignIdsAux (nextSlug counts base).2 rest

/-- Ids assigned to a document's base slugs, starting from empty counts. -/
def assignIds (bases : List (List Char)) : List (List Char) :=
  assignIdsAux [] bases

/-- Occurrences of `b` in `bases`. -/
def countIn (bases : List (List Char)) (b : List Char) : Nat :=
  (bases.filter (fun x => x == b)).length

theorem countIn_append (l₁ l₂ : List (List Char)) (b : List Char) :
    countIn (l₁ ++ l₂) b = countIn l₁ b + countIn l₂ b := by
  unfold countIn
  rw [List.filter_append, List.length_append]

theorem lookup_bumpCount (counts : List (List Char × Nat)) (b b' : List Char) :
    (bumpCount counts b).lookup b' =
      if b' = b then some ((counts.lookup b).getD 0 + 1) else counts.lookup b' := by
  induction counts with
  | nil =>
    unfold bumpCount
    by_cases h : b' = b
    · subst h
      simp [List.lookup]
    · simp [List.lookup, if_neg h, beq_eq_false_iff_ne.mpr h]
  | cons kv rest ih =>
    obtain ⟨k, v⟩ := kv
    unfold bumpCount
    by_cases hk : k = b
    · subst hk
      rw [if_pos rfl]
      by_cases h : b' = k
      · subst h
        simp [List.lookup]
      · simp [List.lookup, beq_eq_false_iff_ne.mpr h, if_neg h]
    · rw [if_neg hk]
      by_cases h : b' = k
      · subst h
        simp [List.lookup, if_neg (show ¬b' = b from fun hc => hk (hc ▸ rfl)),
          beq_eq_false_iff_ne.mpr (show b ≠ b' from fun hc => hk hc.symm)]
      · have hbk : b ≠ k := fun hc => hk hc.symm
        simp [List.lookup, beq_eq_false_iff_ne.mpr h, beq_eq_false_iff_ne.mpr hbk, ih]

theorem assignIdsAux_getElem :
    ∀ (bases : List (List Char)) (counts : List (List Char × Nat)) (k : Nat)
      (base : List Char),
      (∀ b n, counts.lookup b = some n → 0 < n) →
      bases[k]? = some base →
      (assignIdsAux counts bases)[k]? = some (
        if (counts.lookup base).getD 0 + countIn (bases.take k) base = 0 then base
        else base ++ '-' ::
          natChars ((counts.lookup base).getD 0 + countIn (bases.take k) base)) := by
  intro bases
  induction bases with
  | nil =>
    intro counts k base _ hk
    exact absurd hk (by simp)
  | cons b0 rest ih =>
    intro counts k base hpos hk
    cases k with
    | zero =>
      have hb : b0 = base := by simpa using hk
      subst hb
      simp only [List.take_zero, countIn, List.filter_nil, List.length_nil,
        Nat.add_zero]
      show ((nextSlug counts b0).1 ::
        assignIdsAux (nextSlug counts b0).2 rest)[(0 : Nat)]? = _
      unfold nextSlug
      cases hl : counts.lookup b0 with
      | none => simp [hl]
      | some n =>
        have hn := hpos b0 n hl
        simp only [hl, List.getElem?_cons_zero, Option.getD_some]
        rw [if_neg (by omega)]
    | succ j =>
      simp only [List.getElem?_cons_succ] at hk
      have hstep : (assignIdsAux counts (b0 :: rest))[j + 1]?
          = (assignIdsAux (nextSlug counts b0).2 rest)[j]? := by
        have h1 : assignIdsAux counts (b0 :: rest)
            = (nextSlug counts b0).1 :: assignIdsAux (nextSlug counts b0).2 rest := rfl
        rw [h1, List.getElem?_cons_succ]
      rw [hstep]
      have hpos' : ∀ b n, (nextSlug counts b0).2.lookup b = some n → 0 < n := by
        intro b n hb
        unfold nextSlug at hb
        simp only at hb
        rw [lookup_bumpCount] at hb
        by_cases hbb : b = b0
        · rw [if_pos hbb] at hb
          cases hb
          omega
        · rw [if_neg hbb] at hb
          exact hpos b n hb
      rw [ih (nextSlug counts b0).2 j base hpos' hk]
      have hlk : (nextSlug counts b0).2.lookup base
          = if base = b0 then some ((counts.lookup b0).getD 0 + 1)
            else counts.lookup base := by
        unfold nextSlug
        simp only []
        exact lookup_bumpCount counts b0 base
      have hcount : ((nextSlug counts b0).2.lookup base).getD 0
          + countIn (rest.take j) base
          = (counts.lookup base).getD 0 + countIn ((b0 :: rest).take (j + 1)) base := by
        rw [hlk, List.take_succ_cons]
        by_cases hbb : base = b0
        · subst hbb
          rw [if_pos rfl]
          unfold countIn
          rw [List.filter_cons, if_pos (by simp)]
          simp only [List.length_cons, Option.getD_some]
          omega
        · rw [if_neg hbb]
          unfold countIn
          rw [List.filter_cons, if_neg (by simpa using fun hc => hbb hc.symm)]
      rw [hcount]

theorem assignIds_getElem (bases : List (List Char)) (k : Nat) (base : List Char)
    (hk : bases[k]? = some base) :
    (assignIds bases)[k]? = some (
      if countIn (bases.take k) base = 0 then base
      else base ++ '-' :: natChars (countIn (bases.take k) base)) := by
  unfold assignIds
  rw [assignIdsAux_getElem bases [] k base
    (by intro b n hb; simp [List.lookup] at hb) hk]
  simp [List.lookup]

theorem assignIds_distinct_on_base (bases : List (List Char)) (i j : Nat)
    (b idi idj : List Char) (hij : i < j)
    (hi : bases[i]? = some b) (hj : bases[j]? = some b)
    (hidi : (assignIds bases)[i]? = some idi)
    (hidj : (assignIds bases)[j]? = some idj) : idi ≠ idj := by
  rw [assignIds_getElem bases i b hi] at hidi
  rw [assignIds_getElem bases j b hj] at hidj
  have hmono : countIn (bases.take i) b + 1 ≤ countIn (bases.take j) b := by
    have hsplit : bases.take j
        = bases.take (i + 1) ++ (bases.drop (i + 1)).take (j - (i + 1)) := by
      rw [← List.take_add]
      congr 1
      omega
    have htake1 : bases.take (i + 1) = bases.take i ++ [b] := by
      rw [List.take_succ, hi]
      rfl
    rw [hsplit, countIn_append, htake1, countIn_append]
    have hone : countIn [b] b = 1 := by simp [countIn]
    omega
  have hidi' : idi = if countIn (bases.take i) b = 0 then b
      else b ++ '-' :: natChars (countIn (bases.take i) b) :=
    (Option.some.inj hidi).symm
  have hidj' : idj = b ++ '-' :: natChars (countIn (bases.take j) b) := by
    have := (Option.some.inj hidj).symm
    rwa [if_neg (by omega)] at this
  intro hcontra
  by_cases hzero : countIn (bases.take i) b = 0
  · rw [if_pos hzero] at hidi'
    subst hidi' hidj'
    have hlen := congrArg List.length hcontra
    simp at hlen
  · rw [if_neg hzero] at hidi'
    subst hidi' hidj'
    have hc := List.append_cancel_left hcontra
    have hc' : natChars (countIn (bases.take i) b)
        = natChars (countIn (bases.take j) b) := by
      exact List.cons.inj hc |>.2
    have := natChars_inj _ _ hc'
    omega

theorem findSub_of_isPrefixOf (l pat : List Char) (h : pat.isPrefixOf l) :
    findSub l pat = some 0 := by
  cases l with
  | nil =>
    cases pat with
    | nil => rfl
    | cons p ps => simp [List.isPrefixOf] at h
  | cons x rest =>
    unfold findSub
    rw [if_pos h]

theorem findSub_cons_skip (x : Char) (rest pat : List Char)
    (h : pat.isPrefixOf (x :: rest) = false) :
    findSub (x :: rest) pat = (findSub rest pat).map (fun i => i + 1) := by
  conv_lhs => rw [findSub]
  rw [if_neg (by simp [h])]

theorem findSub_eq_none (l pat : List Char) (c : Char)
    (hc : pat.head? = some c) (hmem : c ∉ l) : findSub l pat = none := by
  induction l with
  | nil =>
    unfold findSub
    rw [if_neg]
    intro hcontra
    subst hcontra
    simp at hc
  | cons x rest ih =>
    have hx : ¬ c = x := fun h => hmem (h ▸ List.mem_cons_self x rest)
    have hnp : pat.isPrefixOf (x :: rest) = false := by
      cases pat with
      | nil => simp at hc
      | cons p ps =>
        have hp : p = c := by simpa using hc
        show ((p == x) && ps.isPrefixOf rest) = false
        rw [beq_eq_false_iff_ne.mpr
          (show p ≠ x from fun hcontra => hx (hp.symm.trans hcontra))]
        rfl
    rw [findSub_cons_skip x rest pat hnp,
      ih (fun hm => hmem (List.mem_cons_of_mem x hm))]
    rfl

theorem findSub_append_left (sep l pat : List Char) (c : Char) (n : Nat)
    (hc : pat.head? = some c) (hmem : c ∉ sep) (hfind : findSub l pat = some n) :
    findSub (sep ++ l) pat = some (sep.length + n) := by
  induction sep with
  | nil =>
    simpa using hfind
  | cons x rest ih =>
    have hx : ¬ c = x := fun h => hmem (h ▸ List.mem_cons_self x rest)
    have hnp : pat.isPrefixOf (x :: (rest ++ l)) = false := by
      cases pat with
      | nil => simp at hc
      | cons p ps =>
        have hp : p = c := by simpa using hc
        show ((p == x) && ps.isPrefixOf (rest ++ l)) = false
        rw [beq_eq_false_iff_ne.mpr
          (show p ≠ x from fun hcontra => hx (hp.symm.trans hcontra))]
        rfl
    rw [List.cons_append, findSub_cons_skip x (rest ++ l) pat hnp,
      ih (fun hm => hmem (List.mem_cons_of_mem x hm))]
    simp only [Option.map_some', Option.some.injEq, List.length_cons]
    omega

theorem findSub_closeTag (lv : Char) (t rest' : List Char)
    (hlv : '1' ≤ lv ∧ lv ≤ '6') (ht : ('<' : Char) ∉ t) :
    findSub ('<' :: 'h' :: lv :: '>' :: (t ++ (closeTag lv ++ rest'))) (closeTag lv)
      = some (4 + t.length) := by
  have hlv_ne : ¬ ('<' : Char) = lv := by
    intro hcontra
    have h6 : lv ≤ '6' := hlv.2
    rw [← hcontra] at h6
    exact absurd h6 (by decide)
  rw [findSub_cons_skip _ _ _ (by simp [closeTag, List.isPrefixOf])]
  rw [findSub_cons_skip _ _ _ (by simp [closeTag, List.isPrefixOf])]
  rw [findSub_cons_skip _ _ _ (by
    show (('<' == lv) && (('/' :: 'h' :: lv :: ['>']).isPrefixOf
      ('>' :: (t ++ (closeTag lv ++ rest'))))) = false
    rw [beq_eq_false_iff_ne.mpr hlv_ne]
    rfl)]
  rw [findSub_cons_skip _ _ _ (by simp [closeTag, List.isPrefixOf])]
  rw [findSub_append_left t (closeTag lv ++ rest') (closeTag lv) '<' 0 rfl ht
    (findSub_of_isPrefixOf _ _
      (List.isPrefixOf_iff_prefix.mpr (List.prefix_append _ _)))]
  simp only [Option.map_some', Option.some.injEq]
  omega

theorem findSub_openEnd (lv : Char) (t : List Char) (hlv : '1' ≤ lv ∧ lv ≤ '6') :
    findSub ('<' :: 'h' :: lv :: '>' :: t) (chars ">") = some 3 := by
  have hlv_ne : ¬ ('>' : Char) = lv := by
    intro hcontra
    have h6 : lv ≤ '6' := hlv.2
    rw [← hcontra] at h6
    exact absurd h6 (by decide)
  rw [findSub_cons_skip _ _ _ (by simp [chars, List.isPrefixOf])]
  rw [findSub_cons_skip _ _ _ (by simp [chars, List.isPrefixOf])]
  rw [findSub_cons_skip _ _ _ (by
    show (('>' == lv) && (([] : List Char).isPrefixOf ('>' :: t))) = false
    rw [beq_eq_false_iff_ne.mpr hlv_ne]
    rfl)]
  rw [findSub_of_isPrefixOf _ _ (by simp [chars, List.isPrefixOf])]
  rfl

/-- A simple header element "<hN>text</hN>". -/
def mkHeader (lv : Char) (t : List Char) : List Char :=
  '<' :: 'h' :: lv :: '>' :: (t ++ closeTag lv)

/-- A document made of separator text and simple headers, ending in a final
separator. -/
def mkHtml : List (List Char × Char × List Char) → List Char → List Char
  | [], fin => fin
  | (sep, lv, t) :: rest, fin => sep ++ (mkHeader lv t ++ mkHtml rest fin)

/-- The anchored form src/utils.rs:196-199 produces for one header. -/
def anchoredHeader (lv : Char) (slug t : List Char) : List Char :=
  chars "<h" ++ [lv] ++ chars " id=\"" ++ slug ++ chars "\"><a href=\"#" ++ slug
  ++ chars "\">" ++ t ++ chars "</a></h" ++ [lv] ++ chars ">"

/-- The expected output document: each header anchored with its assigned id. -/
def mkAnchored :
    List (List Char × Char × List Char) → List Char → List (List Char) → List Char
  | [], fin, _ => fin
  | (sep, lv, t) :: rest, fin, slugs =>
    sep ++ (anchoredHeader lv (slugs.headD []) t ++ mkAnchored rest fin slugs.tail)

theorem addAnchorsFuel_structured :
    ∀ (segs : List (List Char × Char × List Char)) (fin : List Char)
      (counts : List (List Char × Nat)) (fuel : Nat),
      (mkHtml segs fin).length < fuel →
      (∀ s ∈ segs, ('<' : Char) ∉ s.1 ∧ ('1' ≤ s.2.1 ∧ s.2.1 ≤ '6') ∧
        ('<' : Char) ∉ s.2.2) →
      ('<' : Char) ∉ fin →
      addAnchorsFuel fuel (mkHtml segs fin) counts
        = mkAnchored segs fin
            (assignIdsAux counts
              (segs.map (fun s => slugify (strip_html_tags s.2.2)))) := by
  intro segs
  induction segs with
  | nil =>
    intro fin counts fuel hfuel hsegs hfin
    cases fuel with
    | zero => omega
    | succ f =>
      show addAnchorsFuel (f + 1) fin counts = fin
      unfold addAnchorsFuel
      rw [findSub_eq_none fin (chars "<h") '<' rfl hfin]
      rfl
  | cons seg rest ih =>
    obtain ⟨sep, lv, t⟩ := seg
    intro fin counts fuel hfuel hsegs hfin
    obtain ⟨hsep, hlv, ht⟩ := hsegs _ (List.mem_cons_self _ _)
    have hrest := fun s hs => hsegs s (List.mem_cons_of_mem _ hs)
    cases fuel with
    | zero => omega
    | succ f =>
      have hin : mkHtml ((sep, lv, t) :: rest) fin
          = sep ++ (mkHeader lv t ++ mkHtml rest fin) := rfl
      have hhd2 : mkHeader lv t ++ mkHtml rest fin
          = '<' :: 'h' :: lv :: '>' :: (t ++ (closeTag lv ++ mkHtml rest fin)) := by
        simp [mkHeader, List.append_assoc]
      have hpre2 : (chars "<h").isPrefixOf (mkHeader lv t ++ mkHtml rest fin) = true := by
        rw [hhd2]
        rfl
      have h1 : findSub (sep ++ (mkHeader lv t ++ mkHtml rest fin)) (chars "<h")
          = some (sep.length + 0) :=
        findSub_append_left sep _ _ '<' 0 rfl hsep
          (findSub_of_isPrefixOf _ _ hpre2)
      rw [hin]
      unfold addAnchorsFuel
      rw [h1]
      show (fun start =>
        let pre := (sep ++ (mkHeader lv t ++ mkHtml rest fin)).take start
        let rem := (sep ++ (mkHeader lv t ++ mkHtml rest fin)).drop start
        if rem.length < 4 then pre ++ rem ++ rem
        else
          (headerLevelOk rem).elim
            (pre ++ rem.take 1 ++ addAnchorsFuel f (rem.drop 1) counts)
            (fun lv =>
              (findSub rem (closeTag lv)).elim
                (pre ++ rem.take 1 ++ addAnchorsFuel f (rem.drop 1) counts)
                (fun closePos =>
                  (findSub (rem.take closePos) (chars ">")).elim
                    (pre ++ rem.take 1 ++ addAnchorsFuel f (rem.drop 1) counts)
                    (fun openEnd =>
                      let content := (rem.take closePos).drop (openEnd + 1)
                      let sc := nextSlug counts (slugify (strip_html_tags content))
                      pre ++ chars "<h" ++ [lv] ++ chars " id=\"" ++ sc.1
                        ++ chars "\"><a href=\"#" ++ sc.1 ++ chars "\">" ++ content
                        ++ chars "</a></h" ++ [lv] ++ chars ">"
                        ++ addAnchorsFuel f (rem.drop (closePos + 5)) sc.2))))
        (sep.length + 0) = _
      simp only [Nat.add_zero, List.take_left, List.drop_left]
      have helim : ∀ {α β : Type} (a : α) (b : β) (g : α → β),
          (some a).elim b g = g a := fun a b g => rfl
      rw [hhd2]
      rw [if_neg (by simp only [List.length_cons]; omega)]
      have hhlo : headerLevelOk
          ('<' :: 'h' :: lv :: '>' :: (t ++ (closeTag lv ++ mkHtml rest fin)))
          = some lv := by
        unfold headerLevelOk
        rw [show ('<' :: 'h' :: lv :: '>'
            :: (t ++ (closeTag lv ++ mkHtml rest fin)))[2]? = some lv by simp,
          show ('<' :: 'h' :: lv :: '>'
            :: (t ++ (closeTag lv ++ mkHtml rest fin)))[3]? = some '>' by simp]
        show (if ('1' ≤ lv ∧ lv ≤ '6') ∧ (('>' : Char) = '>' ∨ ('>' : Char) = ' ')
          then some lv else none) = some lv
        rw [if_pos ⟨hlv, Or.inl rfl⟩]
      rw [hhlo, helim]
      rw [findSub_closeTag lv t (mkHtml rest fin) hlv ht, helim]
      have htake : List.take (4 + t.length)
          ('<' :: 'h' :: lv :: '>' :: (t ++ (closeTag lv ++ mkHtml rest fin)))
          = '<' :: 'h' :: lv :: '>' :: t := by
        have heq : '<' :: 'h' :: lv :: '>' :: (t ++ (closeTag lv ++ mkHtml rest fin))
            = ('<' :: 'h' :: lv :: '>' :: t) ++ (closeTag lv ++ mkHtml rest fin) := by
          simp
        rw [heq]
        exact List.take_left' (by simp only [List.length_cons]; omega)
      rw [htake]
      rw [findSub_openEnd lv t hlv, helim]
      have hcontent : List.drop (3 + 1) ('<' :: 'h' :: lv :: '>' :: t) = t := rfl
      rw [hcontent]
      have hdrop5 : List.drop (4 + t.length + 5)
          ('<' :: 'h' :: lv :: '>' :: (t ++ (closeTag lv ++ mkHtml rest fin)))
          = mkHtml rest fin := by
        have heq : '<' :: 'h' :: lv :: '>' :: (t ++ (closeTag lv ++ mkHtml rest fin))
            = ('<' :: 'h' :: lv :: '>' :: (t ++ closeTag lv)) ++ mkHtml rest fin := by
          simp
        rw [heq]
        exact List.drop_left' (by simp [closeTag]; omega)
      rw [hdrop5]
      have hfuel' : (mkHtml rest fin).length < f := by
        have hlen : (mkHtml ((sep, lv, t) :: rest) fin).length
            = sep.length + t.length + 9 + (mkHtml rest fin).length := by
          simp [mkHtml, mkHeader, closeTag, List.length_append]
          omega
        omega
      rw [ih fin (nextSlug counts (slugify (strip_html_tags t))).2 f hfuel' hrest hfin]
      have hrhs : mkAnchored ((sep, lv, t) :: rest) fin
          (assignIdsAux counts
            (List.map (fun s => slugify (strip_html_tags s.2.2)) ((sep, lv, t) :: rest)))
          = sep ++ (anchoredHeader lv (nextSlug counts (slugify (strip_html_tags t))).1 t
              ++ mkAnchored rest fin
                  (assignIdsAux (nextSlug counts (slugify (strip_html_tags t))).2
                    (List.map (fun s => slugify (strip_html_tags s.2.2)) rest))) := rfl
      rw [hrhs]
      simp [anchoredHeader, List.append_assoc]

/-- C10 counterexample: on the concrete document
"<h2>A</h2><h2>A</h2><h2>A 1</h2>" the generated ids are a, a-1 and a-1 —
the third header's base slug "a-1" collides with the deduplicated id of the
second header, so the ids of one document are not pairwise distinct. -/
theorem add_header_anchors_duplicate_ids :
    ¬ (extractIds (add_header_anchors (chars "<h2>A</h2><h2>A</h2><h2>A 1</h2>"))).Nodup
    ∧ extractIds (add_header_anchors (chars "<h2>A</h2><h2>A</h2><h2>A 1</h2>"))
      = [chars "a", chars "a-1", chars "a-1"] := by
  constructor <;> decide

/-- C10 amended: on documents made of simple headers and angle-bracket-free
separators, every recognized header receives the id obtained by slugifying
its tag-stripped text, deduplicated per base slug: the k-th header with a
given base slug gets the bare slug for k = 0 and slug-k afterwards, and ids
are pairwise distinct among headers sharing one base slug (though not across
different base slugs, as the counterexample shows). -/
theorem add_header_anchors_spec (segs : List (List Char × Char × List Char))
    (fin : List Char)
    (hsegs : ∀ s ∈ segs, ('<' : Char) ∉ s.1 ∧ ('1' ≤ s.2.1 ∧ s.2.1 ≤ '6') ∧
      ('<' : Char) ∉ s.2.2)
    (hfin : ('<' : Char) ∉ fin) :
    (add_header_anchors (mkHtml segs fin)
      = mkAnchored segs fin
          (assignIds (segs.map (fun s => slugify (strip_html_tags s.2.2))))) ∧
    (∀ (k : Nat) (base : List Char),
      (segs.map (fun s => slugify (strip_html_tags s.2.2)))[k]? = some base →
      (assignIds (segs.map (fun s => slugify (strip_html_tags s.2.2))))[k]?
        = some (
          if countIn ((segs.map (fun s => slugify (strip_html_tags s.2.2))).take k)
              base = 0 then base
          else base ++ '-' :: natChars
            (countIn ((segs.map (fun s => slugify (strip_html_tags s.2.2))).take k)
              base))) ∧
    (∀ (i j : Nat) (b idi idj : List Char), i < j →
      (segs.map (fun s => slugify (strip_html_tags s.2.2)))[i]? = some b →
      (segs.map (fun s => slugify (strip_html_tags s.2.2)))[j]? = some b →
      (assignIds (segs.map (fun s => slugify (strip_html_tags s.2.2))))[i]?
        = some idi →
      (assignIds (segs.map (fun s => slugify (strip_html_tags s.2.2))))[j]?
        = some idj →
      idi ≠ idj) := by
  refine ⟨?_, fun k base hk => assignIds_getElem _ k base hk,
    fun i j b idi idj hij hi hj hdi hdj =>
      assignIds_distinct_on_base _ i j b idi idj hij hi hj hdi hdj⟩
  unfold add_header_anchors assignIds
  exact addAnchorsFuel_structured segs fin [] _ (by omega) hsegs hfin

/-- C10 witness: two headers titled Introduction separated by plain text; the
first gets id introduction, the second introduction-1. -/
theorem add_header_anchors_spec_witness :
    (add_header_anchors (mkHtml
        [([], '2', chars "Introduction"), (chars " mid ", '2', chars "Introduction")]
        (chars " tail"))
      = mkAnchored
          [([], '2', chars "Introduction"), (chars " mid ", '2', chars "Introduction")]
          (chars " tail")
          (assignIds ([([], '2', chars "Introduction"),
            (chars " mid ", '2', chars "Introduction")].map
              (fun s => slugify (strip_html_tags s.2.2))))) ∧
    assignIds ([([], '2', chars "Introduction"),
        (chars " mid ", '2', chars "Introduction")].map
          (fun s => slugify (strip_html_tags s.2.2)))
      = [chars "introduction", chars "introduction-1"] := by
  constructor
  · exact (add_header_anchors_spec
      [([], '2', chars "Introduction"), (chars " mid ", '2', chars "Introduction")]
      (chars " tail") (by decide) (by decide)).1
  · decide
